import Mathlib

/-!
# Verification of the jdump record-store library

This file shallowly embeds the core of `jdump.py` (and, where relevant, the
`roger_json.py` prototype): the separator-delimited record framer, the
deduplicating reader and writer, the canonical JSON serializer and a JSON
parser modelling `json.dumps` / `json.loads` as the code calls them, the
file-session open/write/close state machine with its temporary-file commit,
and the aggregate `load`, `dump` and `get_count` operations.

Modelling conventions, fixed once here:
* Text is `List Char`. A file's content is a single `List Char`; Python's
  line iteration over a text file is `pyLines`, which keeps each line's
  trailing newline, exactly as Python does.
* Python's `hash` of a string is modelled as the string itself (a perfect,
  injective hash). The spec itself records hash-collision record drops as an
  accepted design limitation, so all dedup claims are read modulo that
  idealisation; a dedup set is a `List (List Char)` of hashed strings.
* JSON numbers are modelled as integers (`Int`); the claims under check do
  not involve floating-point literals, and `float` is not shallowly
  embeddable. Python `dict`s preserve insertion order and cannot repeat a
  key, so an object is a list of key/value pairs, with a well-formedness
  predicate for key distinctness where a claim needs it.
* The gzip branch of the file session performs exactly the same path-level
  operations (same temp path, same rename) as the plain-text branch,
  differing only in the byte-level encoding of the stream, so the session
  model carries the logical text written and elides the wrapper.
-/

namespace JDump

/-! ## Characters, lines and Python string helpers -/

/-- The characters stripped by Python's `str.rstrip('\r\n')`. -/
def isCRLF (c : Char) : Bool := c = '\r' || c = '\n'

/-- Python `line.rstrip('\r\n')`: drop trailing carriage returns and
newlines. -/
def rstripCRLF (l : List Char) : List Char :=
  (l.reverse.dropWhile isCRLF).reverse

/-- ASCII whitespace as recognised by Python's `str.strip()` (restricted to
the ASCII range, which covers every character the library emits). -/
def isPyWs (c : Char) : Bool :=
  c = ' ' || c = '\t' || c = '\n' || c = '\r' || c = '\x0b' || c = '\x0c'

/-- `''.join(buf).strip()` is falsy iff every character is whitespace. -/
def isBlank (l : List Char) : Bool := l.all isPyWs

theorem isBlank_nil : isBlank [] = true := rfl

/-- Python text-file iteration: split a file's content into lines, each line
keeping its terminating `'\n'`; a final unterminated chunk is its own line.
`pyLines "a\nb" = ["a\n", "b"]`. -/
def pyLines : List Char → List (List Char)
  | [] => []
  | c :: cs =>
    if c = '\n' then ['\n'] :: pyLines cs
    else
      match pyLines cs with
      | [] => [[c]]
      | l :: ls => (c :: l) :: ls

theorem pyLines_nil : pyLines [] = [] := rfl

theorem pyLines_cons_nl (cs : List Char) :
    pyLines ('\n' :: cs) = ['\n'] :: pyLines cs := by
  simp [pyLines]

theorem pyLines_ne_nil : ∀ {s : List Char}, s ≠ [] → pyLines s ≠ []
  | [], h => absurd rfl h
  | _ :: _, _ => by
    simp only [pyLines]
    split
    · simp
    · split <;> simp

theorem pyLines_cons_of_ne {c : Char} (h : c ≠ '\n') {cs l : List Char}
    {ls : List (List Char)} (hcs : pyLines cs = l :: ls) :
    pyLines (c :: cs) = (c :: l) :: ls := by
  simp [pyLines, h, hcs]

theorem pyLines_singleton_of_ne {c : Char} (h : c ≠ '\n') :
    pyLines [c] = [[c]] := by
  simp [pyLines, h]

theorem pyLines_append_of_last_nl :
    ∀ (a b : List Char), a.getLast? = some '\n' →
      pyLines (a ++ b) = pyLines a ++ pyLines b := by
  intro a
  induction a with
  | nil => intro b h; simp at h
  | cons c cs ih =>
    intro b hlast
    cases cs with
    | nil =>
      have hc : c = '\n' := by simpa using hlast
      subst hc
      simp [pyLines_cons_nl, pyLines]
    | cons d ds =>
      have hlast' : (d :: ds).getLast? = some '\n' := by
        simpa [List.getLast?_cons_cons] using hlast
      have ihb := ih b hlast'
      by_cases hc : c = '\n'
      · subst hc
        simp only [List.cons_append] at ihb ⊢
        simp only [pyLines_cons_nl, List.cons_append, ihb]
      · obtain ⟨l, ls, hpl⟩ : ∃ l ls, pyLines (d :: ds) = l :: ls := by
          cases hx : pyLines (d :: ds) with
          | nil => exact absurd hx (pyLines_ne_nil (by simp))
          | cons l ls => exact ⟨l, ls, rfl⟩
        rw [hpl] at ihb
        have hl : pyLines ((d :: ds) ++ b) = l :: (ls ++ pyLines b) := by
          simpa using ihb
        rw [List.cons_append, pyLines_cons_of_ne hc hl,
            pyLines_cons_of_ne hc hpl]
        simp

/-- Joining the lines back gives the original content. -/
theorem join_pyLines : ∀ s : List Char, (pyLines s).flatten = s := by
  intro s
  induction s with
  | nil => simp [pyLines]
  | cons c cs ih =>
    by_cases hc : c = '\n'
    · subst hc; simp [pyLines, ih]
    · simp only [pyLines, if_neg hc]
      cases hpl : pyLines cs with
      | nil =>
        have : cs = [] := by rw [← ih, hpl]; simp
        simp [this]
      | cons l ls =>
        rw [hpl] at ih
        simpa using ih

/-- A content with no newline at all is a single line (if nonempty). -/
theorem pyLines_no_nl {s : List Char} (hs : s ≠ []) (h : '\n' ∉ s) :
    pyLines s = [s] := by
  induction s with
  | nil => exact absurd rfl hs
  | cons c cs ih =>
    have hc : c ≠ '\n' := by intro hcc; exact h (hcc ▸ List.mem_cons_self ..)
    have hcs : '\n' ∉ cs := fun hm => h (List.mem_cons_of_mem _ hm)
    simp only [pyLines, if_neg hc]
    cases hn : cs with
    | nil => simp [hn, pyLines]
    | cons d ds =>
      rw [← hn]
      have := ih (by simp [hn]) hcs
      rw [this]

/-! ## The record framer (`jdump._reader`)

`_reader(file_obj, separator)` buffers lines until it meets a line whose
`rstrip('\r\n')` equals the separator, yields the buffer, and at end of
stream warns and yields the buffer once more when the leftover joined text
is not blank.  `framer` returns the yielded blocks in order together with
the Boolean diagnostic flag: `true` iff the corrupt-trailing-data warning
was emitted. -/

def framerAux (sep : List Char) (buf : List (List Char)) :
    List (List Char) → List (List (List Char)) × Bool
  | [] =>
    if isBlank buf.flatten then ([], false) else ([buf], true)
  | line :: rest =>
    if rstripCRLF line = sep then
      let (bs, w) := framerAux sep [] rest
      (buf :: bs, w)
    else
      framerAux sep (buf ++ [line]) rest

/-- The framer: all blocks yielded by `jdump._reader` (the last one possibly
being the corrupt trailing block), and whether the corruption diagnostic was
raised. -/
def framer (sep : List Char) (lines : List (List Char)) :
    List (List (List Char)) × Bool :=
  framerAux sep [] lines

theorem framerAux_cons_ne {sep line : List Char} (h : rstripCRLF line ≠ sep)
    (buf : List (List Char)) (rest : List (List Char)) :
    framerAux sep buf (line :: rest) = framerAux sep (buf ++ [line]) rest := by
  simp [framerAux, h]

theorem framerAux_cons_sep {sep line : List Char} (h : rstripCRLF line = sep)
    (buf : List (List Char)) (rest : List (List Char)) :
    framerAux sep buf (line :: rest) =
      (buf :: (framerAux sep [] rest).1, (framerAux sep [] rest).2) := by
  simp [framerAux, h]

/-- On a separator-free suffix, the framer ends the stream: it discards a
blank leftover silently and yields a non-blank leftover with the
diagnostic. -/
theorem framerAux_no_sep (sep : List Char) (buf : List (List Char))
    (tail : List (List Char)) (htail : ∀ l ∈ tail, rstripCRLF l ≠ sep) :
    framerAux sep buf tail =
      if isBlank (buf ++ tail).flatten then ([], false)
      else ([buf ++ tail], true) := by
  induction tail generalizing buf with
  | nil => simp [framerAux]
  | cons line rest ih =>
    have hline : rstripCRLF line ≠ sep := htail line (List.mem_cons_self ..)
    rw [framerAux_cons_ne hline]
    rw [ih (buf ++ [line]) (fun l hl => htail l (List.mem_cons_of_mem _ hl))]
    simp

/-- Reading a separator-free block followed by a separator line yields that
block and continues on the rest with an empty buffer. -/
theorem framerAux_block (sep : List Char) (buf : List (List Char))
    (block : List (List Char)) (hblock : ∀ l ∈ block, rstripCRLF l ≠ sep)
    (sline : List Char) (hs : rstripCRLF sline = sep) (rest : List (List Char)) :
    framerAux sep buf (block ++ sline :: rest) =
      ((buf ++ block) :: (framerAux sep [] rest).1, (framerAux sep [] rest).2) := by
  induction block generalizing buf with
  | nil => simp [framerAux_cons_sep hs]
  | cons line bl ih =>
    have hline : rstripCRLF line ≠ sep := hblock line (List.mem_cons_self ..)
    rw [List.cons_append, framerAux_cons_ne hline]
    rw [ih (buf ++ [line]) (fun l hl => hblock l (List.mem_cons_of_mem _ hl))]
    simp

/-- Splitting lemma: a stream whose final separator line is followed by a
separator-free tail frames as the fully terminated prefix plus, when the
tail is not blank, the tail as one extra block with the diagnostic set. -/
theorem framerAux_split_end (sep sline : List Char) (hs : rstripCRLF sline = sep)
    (tail : List (List Char)) (htail : ∀ l ∈ tail, rstripCRLF l ≠ sep) :
    ∀ (pre : List (List Char)) (buf : List (List Char)),
      framerAux sep buf (pre ++ sline :: tail) =
        ((framerAux sep buf (pre ++ [sline])).1 ++
            (if isBlank tail.flatten then [] else [tail]),
          !isBlank tail.flatten) := by
  intro pre
  induction pre with
  | nil =>
    intro buf
    rw [List.nil_append, List.nil_append, framerAux_cons_sep hs,
        framerAux_cons_sep hs, framerAux_no_sep sep [] tail htail]
    by_cases hb : isBlank tail.flatten
    · simp [framerAux, hb, isBlank_nil]
    · simp [framerAux, hb, isBlank_nil]
  | cons line pre' ih =>
    intro buf
    by_cases hline : rstripCRLF line = sep
    · rw [List.cons_append, framerAux_cons_sep hline,
          List.cons_append, framerAux_cons_sep hline, ih []]
      simp
    · rw [List.cons_append, framerAux_cons_ne hline,
          List.cons_append, framerAux_cons_ne hline, ih (buf ++ [line])]

/-- C7: for every input line stream handed to the record framer
(`jdump._reader`): if the stream ends with a non-blank buffered block not
terminated by a separator line, the framer raises the corruption diagnostic
and still yields that trailing block as its final block; if the buffered
block at end of stream is blank, it is discarded with no extra output and no
diagnostic.  Stated both for streams containing a final separator line
(`pre ++ sline :: tail`) and for streams with no separator at all. -/
theorem C7_framer_trailing_block (sep sline : List Char)
    (hs : rstripCRLF sline = sep) (pre tail : List (List Char))
    (htail : ∀ l ∈ tail, rstripCRLF l ≠ sep) :
    (framer sep (pre ++ sline :: tail) =
        ((framer sep (pre ++ [sline])).1 ++
            (if isBlank tail.flatten then [] else [tail]),
          !isBlank tail.flatten))
    ∧ (framer sep tail =
        if isBlank tail.flatten then ([], false) else ([tail], true)) := by
  constructor
  · exact framerAux_split_end sep sline hs tail htail pre []
  · simpa using framerAux_no_sep sep [] tail htail

/-- Witness for C7 at a concrete stream: lines `["a\n", "--\n", "x"]` with
separator `--` frame as the block `["a\n"]` plus the non-blank trailing
block `["x"]` with the diagnostic raised; the blank-trailing variant
`["a\n", "--\n"]` frames silently. -/
theorem C7_witness :
    framer ['-', '-'] [['a', '\n'], ['-', '-', '\n'], ['x']] =
        ([[['a', '\n']], [['x']]], true)
    ∧ framer ['-', '-'] [['a', '\n'], ['-', '-', '\n']] =
        ([[['a', '\n']]], false) := by
  have h1 := C7_framer_trailing_block ['-', '-'] ['-', '-', '\n'] (by decide)
    [['a', '\n']] [['x']] (by decide)
  have h2 := C7_framer_trailing_block ['-', '-'] ['-', '-', '\n'] (by decide)
    [['a', '\n']] [] (by decide)
  constructor
  · have := h1.1
    rw [show [['a', '\n']] ++ ['-', '-', '\n'] :: [['x']]
          = [['a', '\n'], ['-', '-', '\n'], ['x']] from rfl] at this
    rw [this]
    decide
  · have := h2.1
    rw [show [['a', '\n']] ++ ['-', '-', '\n'] :: ([] : List (List Char))
          = [['a', '\n'], ['-', '-', '\n']] from rfl] at this
    rw [this]
    decide

/-! ## JSON values

The structured values the library stores.  Numbers are integers (see the
header note); a Python `dict` is a key/value list in insertion order. -/

inductive Json where
  | null
  | bool (b : Bool)
  | num (n : Int)
  | str (s : List Char)
  | arr (xs : List Json)
  | obj (kvs : List (List Char × Json))

mutual

def beqJ : Json → Json → Bool
  | .null, .null => true
  | .bool a, .bool b => a == b
  | .num a, .num b => a == b
  | .str a, .str b => a == b
  | .arr a, .arr b => beqL a b
  | .obj a, .obj b => beqK a b
  | _, _ => false

def beqL : List Json → List Json → Bool
  | [], [] => true
  | x :: xs, y :: ys => beqJ x y && beqL xs ys
  | _, _ => false

def beqK : List (List Char × Json) → List (List Char × Json) → Bool
  | [], [] => true
  | (k, v) :: xs, (l, w) :: ys => k == l && beqJ v w && beqK xs ys
  | _, _ => false

end

mutual

theorem beqJ_iff : ∀ a b : Json, beqJ a b = true ↔ a = b
  | .null, .null => by simp [beqJ]
  | .bool _, .bool _ => by simp [beqJ]
  | .num _, .num _ => by simp [beqJ]
  | .str _, .str _ => by simp [beqJ]
  | .arr x, .arr y => by simp [beqJ, beqL_iff x y]
  | .obj x, .obj y => by simp [beqJ, beqK_iff x y]
  | .null, .bool _ | .null, .num _ | .null, .str _ | .null, .arr _ | .null, .obj _
  | .bool _, .null | .bool _, .num _ | .bool _, .str _ | .bool _, .arr _ | .bool _, .obj _
  | .num _, .null | .num _, .bool _ | .num _, .str _ | .num _, .arr _ | .num _, .obj _
  | .str _, .null | .str _, .bool _ | .str _, .num _ | .str _, .arr _ | .str _, .obj _
  | .arr _, .null | .arr _, .bool _ | .arr _, .num _ | .arr _, .str _ | .arr _, .obj _
  | .obj _, .null | .obj _, .bool _ | .obj _, .num _ | .obj _, .str _ | .obj _, .arr _ =>
    by simp [beqJ]

theorem beqL_iff : ∀ xs ys : List Json, beqL xs ys = true ↔ xs = ys
  | [], [] => by simp [beqL]
  | x :: xs, y :: ys => by simp [beqL, beqJ_iff x y, beqL_iff xs ys]
  | [], _ :: _ => by simp [beqL]
  | _ :: _, [] => by simp [beqL]

theorem beqK_iff : ∀ xs ys : List (List Char × Json), beqK xs ys = true ↔ xs = ys
  | [], [] => by simp [beqK]
  | (k, v) :: xs, (l, w) :: ys => by
    simp [beqK, beqJ_iff v w, beqK_iff xs ys, and_assoc, Prod.ext_iff]
  | [], _ :: _ => by simp [beqK]
  | _ :: _, [] => by simp [beqK]

end

instance : DecidableEq Json := fun a b => decidable_of_iff _ (beqJ_iff a b)

/-! ## Key order and `sort_keys`

Python's `sorted` on strings compares code points lexicographically; the
serializer sorts each object's items by key. -/

/-- Strict lexicographic order on strings of characters, by code point. -/
def ltChars : List Char → List Char → Bool
  | _, [] => false
  | [], _ :: _ => true
  | a :: as, b :: bs => if a = b then ltChars as bs else decide (a < b)

theorem ltChars_asymm : ∀ {a b : List Char}, ltChars a b = true → ltChars b a = false
  | _, [], h => by simp [ltChars] at h
  | [], _ :: _, _ => by simp [ltChars]
  | a :: as, b :: bs, h => by
    by_cases hab : a = b
    · subst hab
      simp only [ltChars, if_pos rfl] at h ⊢
      exact ltChars_asymm h
    · simp only [ltChars, if_neg hab] at h
      have hba : b ≠ a := fun hba => hab hba.symm
      simp only [ltChars, if_neg hba]
      have : a < b := of_decide_eq_true h
      simp [not_lt_of_gt this]

/-- Stable insertion of one item into a key-sorted item list (descends while
the existing key is strictly smaller, so insertion order is preserved among
equal keys, matching Python's stable `sorted`). -/
def insertKV (x : List Char × Json) : List (List Char × Json) → List (List Char × Json)
  | [] => [x]
  | y :: ys => if ltChars y.1 x.1 then y :: insertKV x ys else x :: y :: ys

/-- `sorted(items, key=itemgetter(0))`: stable insertion sort by key. -/
def sortKeys : List (List Char × Json) → List (List Char × Json)
  | [] => []
  | x :: xs => insertKV x (sortKeys xs)

/-- Adjacent-pairs check that a list of items is key-sorted. -/
def sortedKeys : List (List Char × Json) → Bool
  | [] => true
  | [_] => true
  | x :: y :: r => !ltChars y.1 x.1 && sortedKeys (y :: r)

theorem sortedKeys_cons_cons (y z : List Char × Json) (zs : List (List Char × Json)) :
    sortedKeys (y :: z :: zs) = (!ltChars z.1 y.1 && sortedKeys (z :: zs)) := rfl

/-- Inserting into a sorted list keeps it sorted. -/
theorem sortedKeys_insertKV (x : List Char × Json) :
    ∀ l, sortedKeys l = true → sortedKeys (insertKV x l) = true
  | [], _ => rfl
  | [y], _ => by
    cases hy : ltChars y.1 x.1 with
    | true => simp [insertKV, hy, sortedKeys, ltChars_asymm hy]
    | false => simp [insertKV, hy, sortedKeys]
  | y :: z :: zs, h => by
    rw [sortedKeys_cons_cons, Bool.and_eq_true, Bool.not_eq_true'] at h
    obtain ⟨hzy, hrest⟩ := h
    have ih := sortedKeys_insertKV x (z :: zs) hrest
    cases hy : ltChars y.1 x.1 with
    | true =>
      simp only [insertKV, hy, if_pos]
      cases hz : ltChars z.1 x.1 with
      | true =>
        simp only [insertKV, hz, if_pos] at ih ⊢
        rw [sortedKeys_cons_cons, Bool.and_eq_true, Bool.not_eq_true']
        exact ⟨hzy, ih⟩
      | false =>
        simp only [insertKV, hz, Bool.false_eq_true, if_false] at ih ⊢
        rw [sortedKeys_cons_cons, Bool.and_eq_true, Bool.not_eq_true']
        exact ⟨ltChars_asymm hy, ih⟩
    | false =>
      simp only [insertKV, hy, Bool.false_eq_true, if_false]
      rw [sortedKeys_cons_cons, Bool.and_eq_true, Bool.not_eq_true']
      refine ⟨hy, ?_⟩
      rw [sortedKeys_cons_cons, Bool.and_eq_true, Bool.not_eq_true']
      exact ⟨hzy, hrest⟩

/-- The sort really sorts. -/
theorem sortedKeys_sortKeys : ∀ l, sortedKeys (sortKeys l) = true
  | [] => rfl
  | x :: xs => sortedKeys_insertKV x (sortKeys xs) (sortedKeys_sortKeys xs)

/-- Sorting an already sorted list changes nothing (so the sort is
idempotent). -/
theorem sortKeys_of_sorted : ∀ l, sortedKeys l = true → sortKeys l = l
  | [], _ => rfl
  | [_], _ => rfl
  | x :: y :: ys, h => by
    rw [sortedKeys_cons_cons, Bool.and_eq_true, Bool.not_eq_true'] at h
    obtain ⟨hyx, hrest⟩ := h
    have ih := sortKeys_of_sorted (y :: ys) hrest
    simp only [sortKeys] at ih ⊢
    rw [ih]
    simp [insertKV, hyx]

theorem sortKeys_sortKeys (l : List (List Char × Json)) :
    sortKeys (sortKeys l) = sortKeys l :=
  sortKeys_of_sorted _ (sortedKeys_sortKeys l)

/-- Rewriting every value with `f` (keys untouched) commutes with the
key-directed insertion. -/
theorem insertKV_map (f : Json → Json) (k : List Char) (v : Json) :
    ∀ l, insertKV (k, f v) (l.map (fun kv => (kv.1, f kv.2)))
      = (insertKV (k, v) l).map (fun kv => (kv.1, f kv.2))
  | [] => rfl
  | y :: ys => by
    by_cases hy : ltChars y.1 k
    · simp only [List.map_cons, insertKV, hy, if_pos, insertKV_map f k v ys]
    · simp only [List.map_cons, insertKV, hy]
      simp

/-- Rewriting every value with `f` commutes with the key sort. -/
theorem sortKeys_map (f : Json → Json) :
    ∀ l, sortKeys (l.map (fun kv => (kv.1, f kv.2)))
      = (sortKeys l).map (fun kv => (kv.1, f kv.2))
  | [] => rfl
  | (k, v) :: xs => by
    simp only [List.map_cons, sortKeys, sortKeys_map f xs]
    exact insertKV_map f k v (sortKeys xs)

/-! ## Canonicalisation

`json.dumps(-, sort_keys=True)` serialises every object with its items in
key order; `canon` is that normalisation on the value itself (recursively
sort all object item lists).  The serializer below writes a value verbatim
and the library always serialises through `canon`, which is exactly
`sort_keys=True`. -/

mutual

def canon : Json → Json
  | .null => .null
  | .bool b => .bool b
  | .num n => .num n
  | .str s => .str s
  | .arr xs => .arr (canonL xs)
  | .obj kvs => .obj (sortKeys (canonK kvs))

def canonL : List Json → List Json
  | [] => []
  | x :: xs => canon x :: canonL xs

def canonK : List (List Char × Json) → List (List Char × Json)
  | [] => []
  | (k, v) :: kvs => (k, canon v) :: canonK kvs

end

theorem canonK_eq_map : ∀ kvs, canonK kvs = kvs.map (fun kv => (kv.1, canon kv.2))
  | [] => rfl
  | (_, _) :: kvs => by simp [canonK, canonK_eq_map kvs]

theorem canonL_eq_map : ∀ xs, canonL xs = xs.map canon
  | [] => rfl
  | _ :: xs => by simp [canonL, canonL_eq_map xs]

mutual

theorem canon_canon : ∀ j, canon (canon j) = canon j
  | .null => rfl
  | .bool _ => rfl
  | .num _ => rfl
  | .str _ => rfl
  | .arr xs => by simp [canon, canonL_canonL xs]
  | .obj kvs => by
    simp only [canon]
    rw [canonK_eq_map, ← sortKeys_map, ← canonK_eq_map, canonK_canonK kvs,
        sortKeys_sortKeys]

theorem canonL_canonL : ∀ xs, canonL (canonL xs) = canonL xs
  | [] => rfl
  | x :: xs => by simp [canonL, canon_canon x, canonL_canonL xs]

theorem canonK_canonK : ∀ kvs, canonK (canonK kvs) = canonK kvs
  | [] => rfl
  | (k, v) :: kvs => by simp [canonK, canon_canon v, canonK_canonK kvs]

end

/-! ## Serialisation (`json.dumps(..., sort_keys=True, ensure_ascii=False)`)

`style = none` models `indent=None` (the compact form used for dedup
hashes); `style = some n` models `indent=n` (the writer default is 4).
Python's item/key separators are `(', ', ': ')` without indent and
`(',', ': ')` with indent. -/

/-- Decimal digit character. -/
def digitChar (n : Nat) : Char := Char.ofNat (48 + n)

/-- Decimal digits of a natural number, most significant first (fuel-based
so that it evaluates by kernel reduction). -/
def natDigitsAux : Nat → Nat → List Char
  | 0, _ => []
  | fuel + 1, n =>
    if n < 10 then [digitChar n]
    else natDigitsAux fuel (n / 10) ++ [digitChar (n % 10)]

def natDigits (n : Nat) : List Char := natDigitsAux (n + 1) n

/-- `repr` of a Python `int`, as `json.dumps` prints it. -/
def intChars : Int → List Char
  | .ofNat n => natDigits n
  | .negSucc m => '-' :: natDigits (m + 1)

/-- Lowercase hex digit. -/
def hexDigitChar (n : Nat) : Char :=
  if n < 10 then Char.ofNat (48 + n) else Char.ofNat (87 + n)

/-- How `json.dumps(..., ensure_ascii=False)` escapes one character of a
string: the named escapes, `\u00XX` for remaining control characters, and
everything else verbatim. -/
def escChar (c : Char) : List Char :=
  if c = '"' then ['\\', '"']
  else if c = '\\' then ['\\', '\\']
  else if c = '\n' then ['\\', 'n']
  else if c = '\t' then ['\\', 't']
  else if c = '\r' then ['\\', 'r']
  else if c = '\x08' then ['\\', 'b']
  else if c = '\x0c' then ['\\', 'f']
  else if c.toNat < 32 then
    ['\\', 'u', '0', '0', hexDigitChar (c.toNat / 16), hexDigitChar (c.toNat % 16)]
  else [c]

def escape (s : List Char) : List Char := (s.map escChar).flatten

/-- A JSON string literal: `"` + escaped content + `"`. -/
def strLit (s : List Char) : List Char := '"' :: (escape s ++ ['"'])

/-- Indentation: `n * lvl` spaces. -/
def pad (n lvl : Nat) : List Char := List.replicate (n * lvl) ' '

/-- What follows `[` or `{` before the first element: newline + pad in
indent mode, nothing in compact mode. -/
def openGlue (st : Option Nat) (lvl : Nat) : List Char :=
  match st with
  | none => []
  | some n => '\n' :: pad n lvl

/-- The item separator: `', '` in compact mode, `','` + newline + pad in
indent mode. -/
def sepGlue (st : Option Nat) (lvl : Nat) : List Char :=
  match st with
  | none => [',', ' ']
  | some n => ',' :: '\n' :: pad n lvl

/-- What precedes `]` or `}` after the last element: newline + pad in
indent mode, nothing in compact mode. -/
def closeGlue (st : Option Nat) (lvl : Nat) : List Char :=
  match st with
  | none => []
  | some n => '\n' :: pad n lvl

/-- The key separator `': '` (both modes). -/
def colonGlue : List Char := [':', ' ']

mutual

/-- Serialise a value verbatim (object items in their list order) at
nesting level `lvl`.  `json.dumps(..., sort_keys=True)` is
`serRaw st 0 (canon j)` — see `dumps`. -/
def serRaw (st : Option Nat) (lvl : Nat) : Json → List Char
  | .null => ['n', 'u', 'l', 'l']
  | .bool b => if b then ['t', 'r', 'u', 'e'] else ['f', 'a', 'l', 's', 'e']
  | .num n => intChars n
  | .str s => strLit s
  | .arr [] => ['[', ']']
  | .arr (x :: xs) =>
    '[' :: (openGlue st (lvl + 1) ++ serRaw st (lvl + 1) x ++ serList st (lvl + 1) xs
      ++ closeGlue st lvl ++ [']'])
  | .obj [] => ['{', '}']
  | .obj ((k, v) :: kvs) =>
    '{' :: (openGlue st (lvl + 1) ++ strLit k ++ colonGlue ++ serRaw st (lvl + 1) v
      ++ serKVs st (lvl + 1) kvs ++ closeGlue st lvl ++ ['}'])

/-- The `, item`-continuations of an array. -/
def serList (st : Option Nat) (lvl : Nat) : List Json → List Char
  | [] => []
  | x :: xs => sepGlue st lvl ++ serRaw st lvl x ++ serList st lvl xs

/-- The `, "key": value`-continuations of an object. -/
def serKVs (st : Option Nat) (lvl : Nat) : List (List Char × Json) → List Char
  | [] => []
  | (k, v) :: kvs =>
    sepGlue st lvl ++ strLit k ++ colonGlue ++ serRaw st lvl v ++ serKVs st lvl kvs

end

/-- `json.dumps(j, indent=st, sort_keys=True, ensure_ascii=False)`:
serialise the canonicalised (all-objects-key-sorted) value. -/
def dumps (st : Option Nat) (j : Json) : List Char := serRaw st 0 (canon j)

/-! ## The record writer (`DumpWriter`)

The writer's observable state is its dedup set (`None` when `unique` is
off), its write counter, its indent and its separator.  `wWrite` returns
the new state, the text appended to the underlying stream (empty when the
record is rejected), and the `write` return value. -/

/-- `f'\n{separator}\n'`. -/
def sepBlob (sep : List Char) : List Char := '\n' :: (sep ++ ['\n'])

structure WState where
  indent : Option Nat
  sep : List Char
  seen : Option (List (List Char))
  count : Nat
deriving DecidableEq

/-- `DumpWriter.write`: serialise to canonical form; with dedup on, reject
(returning `False`, appending nothing, changing nothing) if the canonical
string's hash is already recorded; otherwise record it, append canonical
form + separator blob, bump the counter, return `True`. -/
def wWrite (w : WState) (j : Json) : WState × List Char × Bool :=
  let formatted := dumps w.indent j
  match w.seen with
  | some s =>
    if formatted ∈ s then (w, [], false)
    else
      ({ w with seen := some (formatted :: s), count := w.count + 1 },
        formatted ++ sepBlob w.sep, true)
  | none =>
    ({ w with count := w.count + 1 }, formatted ++ sepBlob w.sep, true)

/-- `DumpWriter.writemany`: fold `write` over the iterator; returns the
final state, everything appended, and the number of successful writes. -/
def wWriteMany (w : WState) : List Json → WState × List Char × Nat
  | [] => (w, [], 0)
  | j :: js =>
    let r1 := wWrite w j
    let r2 := wWriteMany r1.1 js
    (r2.1, r1.2.1 ++ r2.2.1, (if r1.2.2 then 1 else 0) + r2.2.2)

/-- A fresh `DumpWriter(f, unique=unique, separator='--', indent=ind)`. -/
def mkWriter (unique : Bool) (ind : Option Nat) : WState :=
  ⟨ind, ['-', '-'], if unique then some [] else none, 0⟩

/-- The text a fresh deduplicating-or-not writer puts on its stream for a
record list, and the number of successful writes. -/
def writerOutput (unique : Bool) (ind : Option Nat) (js : List Json) : List Char :=
  (wWriteMany (mkWriter unique ind) js).2.1

def writerCount (unique : Bool) (ind : Option Nat) (js : List Json) : Nat :=
  (wWriteMany (mkWriter unique ind) js).1.count

/-- C4: with deduplication enabled, `write` on a record whose canonical
form is already recorded returns `False`, appends nothing to the stream and
leaves the writer state (dedup set and counter) unchanged; and for two
records with distinct canonical forms, `writemany([r1, r1, r2])` appends
exactly canonical-form-of-`r1` + separator followed by
canonical-form-of-`r2` + separator, in that order, and returns 2. -/
theorem C4_writer_dedup :
    (∀ (w : WState) (s : List (List Char)) (j : Json),
      w.seen = some s → dumps w.indent j ∈ s → wWrite w j = (w, [], false))
    ∧ (∀ (ind : Option Nat) (r1 r2 : Json), dumps ind r1 ≠ dumps ind r2 →
        wWriteMany (mkWriter true ind) [r1, r1, r2] =
          (⟨ind, ['-', '-'], some [dumps ind r2, dumps ind r1], 2⟩,
            (dumps ind r1 ++ sepBlob ['-', '-']) ++ (dumps ind r2 ++ sepBlob ['-', '-']),
            2)) := by
  constructor
  · intro w s j hseen hmem
    simp [wWrite, hseen, hmem]
  · intro ind r1 r2 hne
    simp [wWriteMany, wWrite, mkWriter, hne, Ne.symm hne]

/-- Witness for C4 at `r1 = null`, `r2 = true`, `indent=4`, and at a writer
whose dedup set already contains the canonical form of `null`. -/
theorem C4_witness :
    wWrite ⟨some 4, ['-', '-'], some [['n', 'u', 'l', 'l']], 7⟩ Json.null =
        (⟨some 4, ['-', '-'], some [['n', 'u', 'l', 'l']], 7⟩, [], false)
    ∧ wWriteMany (mkWriter true (some 4)) [Json.null, Json.null, Json.bool true] =
        (⟨some 4, ['-', '-'],
            some [['t', 'r', 'u', 'e'], ['n', 'u', 'l', 'l']], 2⟩,
          (['n', 'u', 'l', 'l'] ++ sepBlob ['-', '-'])
            ++ (['t', 'r', 'u', 'e'] ++ sepBlob ['-', '-']),
          2) := by
  constructor
  · exact C4_writer_dedup.1 _ [['n', 'u', 'l', 'l']] Json.null rfl (by decide)
  · exact C4_writer_dedup.2 (some 4) Json.null (Json.bool true) (by decide)

/-! ## Parsing (`json.loads`)

A recursive-descent parser, exact on the image of the serializer (which is
all the library ever feeds it in the claims below: every store block under
check is a canonical form).  Fuel-based so that everything evaluates by
kernel reduction; `loads` supplies `length + 1` fuel, which the round-trip
lemmas show is always sufficient on serializer output. -/

/-- JSON whitespace. -/
def isWsC (c : Char) : Bool := c = ' ' || c = '\t' || c = '\n' || c = '\r'

def skipWs (s : List Char) : List Char := s.dropWhile isWsC

def digitVal (c : Char) : Nat := c.toNat - 48

def digitsToNat (ds : List Char) : Nat := ds.foldl (fun a c => 10 * a + digitVal c) 0

def parseNat (s : List Char) : Option (Nat × List Char) :=
  match s.takeWhile Char.isDigit with
  | [] => none
  | ds => some (digitsToNat ds, s.dropWhile Char.isDigit)

def hexVal (c : Char) : Option Nat :=
  if c.isDigit then some (c.toNat - 48)
  else if 'a' ≤ c ∧ c ≤ 'f' then some (c.toNat - 87)
  else if 'A' ≤ c ∧ c ≤ 'F' then some (c.toNat - 55)
  else none

def unescChar : Char → Option Char
  | 'n' => some '\n'
  | 't' => some '\t'
  | 'r' => some '\r'
  | 'b' => some '\x08'
  | 'f' => some '\x0c'
  | '"' => some '"'
  | '\\' => some '\\'
  | '/' => some '/'
  | _ => none

/-- Parse the body of a string literal after the opening quote, returning
the decoded content and what follows the closing quote. -/
def parseStrBody : List Char → Option (List Char × List Char)
  | [] => none
  | '"' :: rest => some ([], rest)
  | '\\' :: rest =>
    match rest with
    | 'u' :: a :: b :: c :: d :: rest' => do
      let ha ← hexVal a
      let hb ← hexVal b
      let hc ← hexVal c
      let hd ← hexVal d
      let (s, r) ← parseStrBody rest'
      some (Char.ofNat (((ha * 16 + hb) * 16 + hc) * 16 + hd) :: s, r)
    | e :: rest' =>
      match unescChar e with
      | some ch => do
        let (s, r) ← parseStrBody rest'
        some (ch :: s, r)
      | none => none
    | [] => none
  | c :: rest => do
    let (s, r) ← parseStrBody rest
    some (c :: s, r)

mutual

def parseVal : Nat → List Char → Option (Json × List Char)
  | 0, _ => none
  | fuel + 1, s =>
    match s with
    | 'n' :: 'u' :: 'l' :: 'l' :: rest => some (.null, rest)
    | 't' :: 'r' :: 'u' :: 'e' :: rest => some (.bool true, rest)
    | 'f' :: 'a' :: 'l' :: 's' :: 'e' :: rest => some (.bool false, rest)
    | '"' :: rest =>
      match parseStrBody rest with
      | some (str, r) => some (.str str, r)
      | none => none
    | '[' :: rest =>
      match skipWs rest with
      | ']' :: r2 => some (.arr [], r2)
      | r1 => do
        let (x, r2) ← parseVal fuel r1
        let (xs, r3) ← parseElems fuel r2
        some (.arr (x :: xs), r3)
    | '{' :: rest =>
      match skipWs rest with
      | '}' :: r2 => some (.obj [], r2)
      | '"' :: r2 => do
        let (k, r3) ← parseStrBody r2
        match skipWs r3 with
        | ':' :: r5 => do
          let (v, r6) ← parseVal fuel (skipWs r5)
          let (kvs, r7) ← parseMembers fuel r6
          some (.obj ((k, v) :: kvs), r7)
        | _ => none
      | _ => none
    | '-' :: rest => do
      let (n, r) ← parseNat rest
      some (.num (-(n : Int)), r)
    | c :: rest =>
      if c.isDigit then
        match parseNat (c :: rest) with
        | some (n, r) => some (.num (n : Int), r)
        | none => none
      else none
    | [] => none

def parseElems : Nat → List Char → Option (List Json × List Char)
  | 0, _ => none
  | fuel + 1, s =>
    match skipWs s with
    | ']' :: r => some ([], r)
    | ',' :: r => do
      let (x, r2) ← parseVal fuel (skipWs r)
      let (xs, r3) ← parseElems fuel r2
      some (x :: xs, r3)
    | _ => none

def parseMembers : Nat → List Char → Option (List (List Char × Json) × List Char)
  | 0, _ => none
  | fuel + 1, s =>
    match skipWs s with
    | '}' :: r => some ([], r)
    | ',' :: r =>
      match skipWs r with
      | '"' :: r2 => do
        let (k, r3) ← parseStrBody r2
        match skipWs r3 with
        | ':' :: r5 => do
          let (v, r6) ← parseVal fuel (skipWs r5)
          let (kvs, r7) ← parseMembers fuel r6
          some ((k, v) :: kvs, r7)
        | _ => none
      | _ => none
    | _ => none

end

/-- `json.loads`: parse one value, allowing surrounding whitespace and
rejecting trailing garbage. -/
def loads (s : List Char) : Option Json :=
  match parseVal (s.length + 1) (skipWs s) with
  | some (j, rest) => if skipWs rest = [] then some j else none
  | none => none

/-! ## Round-trip support: digits -/

theorem digitVal_digitChar {d : Nat} (h : d < 10) : digitVal (digitChar d) = d := by
  interval_cases d <;> decide

theorem isDigit_digitChar {d : Nat} (h : d < 10) : (digitChar d).isDigit = true := by
  interval_cases d <;> decide

theorem foldl_digits_eq :
    ∀ (l : List Char) (acc : Nat),
      l.foldl (fun a c => 10 * a + digitVal c) acc = acc * 10 ^ l.length + digitsToNat l := by
  intro l
  induction l with
  | nil => intro acc; simp [digitsToNat]
  | cons c cs ih =>
    intro acc
    have h1 := ih (10 * acc + digitVal c)
    have h2 := ih (digitVal c)
    simp only [List.foldl_cons] at *
    have hd : digitsToNat (c :: cs) = digitVal c * 10 ^ cs.length + digitsToNat cs := by
      simp only [digitsToNat, List.foldl_cons]
      simpa using h2
    rw [h1, hd, List.length_cons, pow_succ]
    ring

theorem digitsToNat_append_one (a : List Char) (d : Char) :
    digitsToNat (a ++ [d]) = 10 * digitsToNat a + digitVal d := by
  simp [digitsToNat, List.foldl_append]

theorem natDigitsAux_spec :
    ∀ fuel n, n < fuel →
      natDigitsAux fuel n ≠ [] ∧ (∀ c ∈ natDigitsAux fuel n, c.isDigit = true) ∧
        digitsToNat (natDigitsAux fuel n) = n := by
  intro fuel
  induction fuel with
  | zero => intro n h; omega
  | succ f ih =>
    intro n hn
    by_cases h10 : n < 10
    · refine ⟨by simp [natDigitsAux, h10], ?_, ?_⟩
      · intro c hc
        simp only [natDigitsAux, if_pos h10, List.mem_singleton] at hc
        subst hc
        exact isDigit_digitChar h10
      · simp only [natDigitsAux, if_pos h10]
        have : digitsToNat [digitChar n] = digitVal (digitChar n) := by
          simp [digitsToNat]
        rw [this, digitVal_digitChar h10]
    · have hpos : 0 < n := by omega
      have hlt : n / 10 < n := Nat.div_lt_self hpos (by omega)
      have hdiv : n / 10 < f := by omega
      obtain ⟨hne, hdig, hval⟩ := ih (n / 10) hdiv
      refine ⟨by simp [natDigitsAux, h10], ?_, ?_⟩
      · intro c hc
        simp only [natDigitsAux, if_neg h10, List.mem_append, List.mem_singleton] at hc
        rcases hc with hc | hc
        · exact hdig c hc
        · subst hc; exact isDigit_digitChar (Nat.mod_lt _ (by omega))
      · simp only [natDigitsAux, if_neg h10]
        rw [digitsToNat_append_one, hval, digitVal_digitChar (Nat.mod_lt _ (by omega))]
        omega

theorem natDigits_ne_nil (n : Nat) : natDigits n ≠ [] :=
  (natDigitsAux_spec (n + 1) n (by omega)).1

theorem natDigits_all_digit (n : Nat) : ∀ c ∈ natDigits n, c.isDigit = true :=
  (natDigitsAux_spec (n + 1) n (by omega)).2.1

theorem digitsToNat_natDigits (n : Nat) : digitsToNat (natDigits n) = n :=
  (natDigitsAux_spec (n + 1) n (by omega)).2.2

/-- `true` iff the stream does not begin with a decimal digit (so a number
token just before it ends where it should). -/
def noDigitHead : List Char → Bool
  | [] => true
  | c :: _ => !c.isDigit

theorem takeWhile_digits :
    ∀ (ds rest : List Char), (∀ c ∈ ds, c.isDigit = true) → noDigitHead rest = true →
      (ds ++ rest).takeWhile Char.isDigit = ds
      ∧ (ds ++ rest).dropWhile Char.isDigit = rest := by
  intro ds
  induction ds with
  | nil =>
    intro rest _ hr
    cases rest with
    | nil => simp
    | cons c t =>
      simp only [noDigitHead, Bool.not_eq_true'] at hr
      simp [List.takeWhile_cons, List.dropWhile_cons, hr]
  | cons d ds ih =>
    intro rest hds hr
    have hd : d.isDigit = true := hds d (List.mem_cons_self ..)
    have := ih rest (fun c hc => hds c (List.mem_cons_of_mem _ hc)) hr
    simp [List.takeWhile_cons, List.dropWhile_cons, hd, this.1, this.2]

theorem parseNat_digits (ds rest : List Char) (hne : ds ≠ [])
    (hds : ∀ c ∈ ds, c.isDigit = true) (hr : noDigitHead rest = true) :
    parseNat (ds ++ rest) = some (digitsToNat ds, rest) := by
  obtain ⟨ht, hd⟩ := takeWhile_digits ds rest hds hr
  cases hds' : ds with
  | nil => exact absurd hds' hne
  | cons d dt =>
    subst hds'
    simp only [parseNat, ht, hd]

theorem parseNat_natDigits (n : Nat) (rest : List Char) (hr : noDigitHead rest = true) :
    parseNat (natDigits n ++ rest) = some (n, rest) := by
  rw [parseNat_digits (natDigits n) rest (natDigits_ne_nil n) (natDigits_all_digit n) hr,
      digitsToNat_natDigits]

/-! ## Round-trip support: strings -/

theorem hexVal_hexDigitChar {d : Nat} (h : d < 16) : hexVal (hexDigitChar d) = some d := by
  interval_cases d <;> decide

theorem parseStrBody_cons (c : Char) (t : List Char) (h1 : c ≠ '"') (h2 : c ≠ '\\') :
    parseStrBody (c :: t) =
      match parseStrBody t with
      | some (s, r) => some (c :: s, r)
      | none => none := by
  rw [parseStrBody]
  · cases parseStrBody t with
    | none => rfl
    | some p => rfl
  · exact fun h => h1 h
  · exact fun h => h2 h

theorem parseStrBody_escape : ∀ (s rest : List Char),
    parseStrBody (escape s ++ '"' :: rest) = some (s, rest)
  | [], rest => by simp [escape, parseStrBody]
  | c :: cs, rest => by
    have ih := parseStrBody_escape cs rest
    have hesc : escape (c :: cs) = escChar c ++ escape cs := by
      simp [escape]
    rw [hesc, List.append_assoc]
    by_cases h1 : c = '"'
    · subst h1; simp [escChar, parseStrBody, unescChar, ih]
    · by_cases h2 : c = '\\'
      · subst h2; simp [escChar, parseStrBody, unescChar, ih]
      · by_cases h3 : c = '\n'
        · subst h3; simp [escChar, parseStrBody, unescChar, ih]
        · by_cases h4 : c = '\t'
          · subst h4; simp [escChar, parseStrBody, unescChar, ih]
          · by_cases h5 : c = '\r'
            · subst h5; simp [escChar, parseStrBody, unescChar, ih]
            · by_cases h6 : c = '\x08'
              · subst h6; simp [escChar, parseStrBody, unescChar, ih]
              · by_cases h7 : c = '\x0c'
                · subst h7; simp [escChar, parseStrBody, unescChar, ih]
                · by_cases h8 : c.toNat < 32
                  · have hesc2 : escChar c =
                        ['\\', 'u', '0', '0', hexDigitChar (c.toNat / 16),
                          hexDigitChar (c.toNat % 16)] := by
                      simp [escChar, h1, h2, h3, h4, h5, h6, h7, h8]
                    rw [hesc2]
                    have hdiv : c.toNat / 16 < 16 := by omega
                    have hmod : c.toNat % 16 < 16 := Nat.mod_lt _ (by omega)
                    have h0 : hexVal '0' = some 0 := by decide
                    simp [parseStrBody, h0, hexVal_hexDigitChar hdiv,
                      hexVal_hexDigitChar hmod, ih,
                      show c.toNat / 16 * 16 + c.toNat % 16 = c.toNat from by omega,
                      Char.ofNat_toNat]
                  · have hesc2 : escChar c = [c] := by
                      simp [escChar, h1, h2, h3, h4, h5, h6, h7, h8]
                    rw [hesc2]
                    simp only [List.cons_append, List.nil_append]
                    rw [parseStrBody_cons c _ h1 h2, ih]

/-! ## Round-trip support: whitespace and token heads -/

theorem skipWs_append_ws :
    ∀ (a b : List Char), (∀ c ∈ a, isWsC c = true) → skipWs (a ++ b) = skipWs b
  | [], _, _ => rfl
  | c :: cs, b, h => by
    have hc : isWsC c = true := h c (List.mem_cons_self ..)
    simp only [List.cons_append, skipWs, List.dropWhile_cons, hc, if_true]
    exact skipWs_append_ws cs b (fun x hx => h x (List.mem_cons_of_mem _ hx))

theorem skipWs_cons_not_ws {c : Char} (h : isWsC c = false) (t : List Char) :
    skipWs (c :: t) = c :: t := by
  simp [skipWs, List.dropWhile_cons, h]

theorem skipWs_cons_ws {c : Char} (h : isWsC c = true) (t : List Char) :
    skipWs (c :: t) = skipWs t := by
  simp [skipWs, List.dropWhile_cons, h]

theorem pad_ws (n lvl : Nat) : ∀ c ∈ pad n lvl, isWsC c = true := by
  intro c hc
  have : c = ' ' := List.eq_of_mem_replicate hc
  subst this
  decide

theorem openGlue_ws (st : Option Nat) (lvl : Nat) :
    ∀ c ∈ openGlue st lvl, isWsC c = true := by
  intro c hc
  cases st with
  | none => cases hc
  | some n =>
    rcases List.mem_cons.mp hc with h | h
    · subst h; decide
    · exact pad_ws n lvl c h

theorem closeGlue_ws (st : Option Nat) (lvl : Nat) :
    ∀ c ∈ closeGlue st lvl, isWsC c = true := by
  intro c hc
  cases st with
  | none => cases hc
  | some n =>
    rcases List.mem_cons.mp hc with h | h
    · subst h; decide
    · exact pad_ws n lvl c h

/-- The item separator always begins with `','`, followed by whitespace. -/
theorem sepGlue_shape (st : Option Nat) (lvl : Nat) :
    ∃ t, sepGlue st lvl = ',' :: t ∧ ∀ c ∈ t, isWsC c = true := by
  cases st with
  | none => exact ⟨[' '], rfl, by intro c hc; rcases List.mem_singleton.mp hc with h; subst h; decide⟩
  | some n =>
    refine ⟨'\n' :: pad n lvl, rfl, ?_⟩
    intro c hc
    rcases List.mem_cons.mp hc with h | h
    · subst h; decide
    · exact pad_ws n lvl c h

theorem digit_not_ws {c : Char} (h : c.isDigit = true) : isWsC c = false := by
  cases hx : isWsC c with
  | false => rfl
  | true =>
    exfalso
    simp only [isWsC, Bool.or_eq_true, decide_eq_true_eq] at hx
    rcases hx with ((h1 | h1) | h1) | h1 <;> (subst h1; exact absurd h (by decide))

theorem digit_ne_rbrack {c : Char} (h : c.isDigit = true) : c ≠ ']' := by
  intro he; subst he; exact absurd h (by decide)

/-- Every serialisation is nonempty and starts with a character that is
neither whitespace nor `']'`. -/
theorem serRaw_head (st : Option Nat) (lvl : Nat) :
    ∀ j : Json, ∃ c t, serRaw st lvl j = c :: t ∧ isWsC c = false ∧ c ≠ ']'
  | .null => ⟨'n', _, rfl, by decide, by decide⟩
  | .bool true => ⟨'t', _, rfl, by decide, by decide⟩
  | .bool false => ⟨'f', _, rfl, by decide, by decide⟩
  | .num (.ofNat m) => by
    obtain ⟨d, t, hd⟩ : ∃ d t, natDigits m = d :: t := by
      cases h : natDigits m with
      | nil => exact absurd h (natDigits_ne_nil m)
      | cons d t => exact ⟨d, t, rfl⟩
    have hdig : d.isDigit = true := natDigits_all_digit m d (by rw [hd]; exact List.mem_cons_self ..)
    exact ⟨d, t, by simpa [serRaw, intChars] using hd, digit_not_ws hdig, digit_ne_rbrack hdig⟩
  | .num (.negSucc m) => ⟨'-', _, rfl, by decide, by decide⟩
  | .str s => ⟨'"', _, rfl, by decide, by decide⟩
  | .arr [] => ⟨'[', _, rfl, by decide, by decide⟩
  | .arr (_ :: _) => ⟨'[', _, rfl, by decide, by decide⟩
  | .obj [] => ⟨'{', _, rfl, by decide, by decide⟩
  | .obj ((_, _) :: _) => ⟨'{', _, rfl, by decide, by decide⟩

/-- After an array's element list come only non-digit characters. -/
theorem noDigitHead_list (st : Option Nat) (lvl lvl' : Nat) (xs : List Json)
    (rest : List Char) :
    noDigitHead (serList st lvl xs ++ (closeGlue st lvl' ++ ']' :: rest)) = true := by
  cases xs with
  | nil =>
    cases st with
    | none => simp [serList, closeGlue, noDigitHead]
    | some n => simp [serList, closeGlue, noDigitHead]
  | cons x xs =>
    obtain ⟨t, ht, _⟩ := sepGlue_shape st lvl
    simp [serList, ht, noDigitHead]

/-- After an object's member list come only non-digit characters. -/
theorem noDigitHead_kvs (st : Option Nat) (lvl lvl' : Nat)
    (kvs : List (List Char × Json)) (rest : List Char) :
    noDigitHead (serKVs st lvl kvs ++ (closeGlue st lvl' ++ '}' :: rest)) = true := by
  cases kvs with
  | nil =>
    cases st with
    | none => simp [serKVs, closeGlue, noDigitHead]
    | some n => simp [serKVs, closeGlue, noDigitHead]
  | cons kv kvs =>
    obtain ⟨t, ht, _⟩ := sepGlue_shape st lvl
    obtain ⟨k, v⟩ := kv
    simp [serKVs, ht, noDigitHead]

/-! ## Fuel measures: how much fuel the parser needs on serializer output -/

mutual

def fv : Json → Nat
  | .null => 1
  | .bool _ => 1
  | .num _ => 1
  | .str _ => 1
  | .arr [] => 1
  | .arr (x :: xs) => 1 + max (fv x) (fl xs)
  | .obj [] => 1
  | .obj ((_, v) :: kvs) => 1 + max (fv v) (fk kvs)

def fl : List Json → Nat
  | [] => 1
  | x :: xs => 1 + max (fv x) (fl xs)

def fk : List (List Char × Json) → Nat
  | [] => 1
  | (_, v) :: kvs => 1 + max (fv v) (fk kvs)

end

theorem fv_pos : ∀ j : Json, 1 ≤ fv j := by
  intro j
  cases j with
  | arr xs => cases xs <;> simp [fv]
  | obj kvs =>
    cases kvs with
    | nil => simp [fv]
    | cons kv kvs => obtain ⟨k, v⟩ := kv; simp [fv]
  | _ => simp [fv]

theorem fl_pos : ∀ xs : List Json, 1 ≤ fl xs := by
  intro xs; cases xs <;> simp [fl]

theorem fk_pos : ∀ kvs : List (List Char × Json), 1 ≤ fk kvs := by
  intro kvs
  cases kvs with
  | nil => simp [fk]
  | cons kv kvs => obtain ⟨k, v⟩ := kv; simp [fk]

/-! ## Parser step lemmas (one per branch, conditional on the scrutinee) -/

theorem parseVal_lbrack_close (f : Nat) (t r : List Char) (h : skipWs t = ']' :: r) :
    parseVal (f + 1) ('[' :: t) = some (.arr [], r) := by
  rw [parseVal, h]
  rfl

theorem parseVal_lbrack_elem (f : Nat) (t r : List Char) (c : Char)
    (h : skipWs t = c :: r) (hc : c ≠ ']') :
    parseVal (f + 1) ('[' :: t) =
      (do
        let (x, r2) ← parseVal f (c :: r)
        let (xs, r3) ← parseElems f r2
        some (Json.arr (x :: xs), r3)) := by
  rw [parseVal, h]
  split
  · rename_i heq
    exact absurd (List.head_eq_of_cons_eq heq) hc
  · rfl

theorem parseVal_lbrace_close (f : Nat) (t r : List Char) (h : skipWs t = '}' :: r) :
    parseVal (f + 1) ('{' :: t) = some (.obj [], r) := by
  rw [parseVal, h]
  rfl

theorem parseVal_lbrace_key (f : Nat) (t r2 : List Char) (h : skipWs t = '"' :: r2) :
    parseVal (f + 1) ('{' :: t) =
      (do
        let (k, r3) ← parseStrBody r2
        match skipWs r3 with
        | ':' :: r5 => do
          let (v, r6) ← parseVal f (skipWs r5)
          let (kvs, r7) ← parseMembers f r6
          some (Json.obj ((k, v) :: kvs), r7)
        | _ => none) := by
  rw [parseVal, h]
  rfl

theorem parseVal_digit_head (f : Nat) (c : Char) (t : List Char) (hc : c.isDigit = true) :
    parseVal (f + 1) (c :: t) =
      match parseNat (c :: t) with
      | some (n, r) => some (.num (n : Int), r)
      | none => none := by
  rw [parseVal]
  · rw [if_pos hc]
  all_goals (intros; subst_vars; exact absurd hc (by decide))

theorem parseElems_close (f : Nat) (s r : List Char) (h : skipWs s = ']' :: r) :
    parseElems (f + 1) s = some ([], r) := by
  rw [parseElems, h]
  rfl

theorem parseElems_step (f : Nat) (s r : List Char) (h : skipWs s = ',' :: r) :
    parseElems (f + 1) s =
      (do
        let (x, r2) ← parseVal f (skipWs r)
        let (xs, r3) ← parseElems f r2
        some (x :: xs, r3)) := by
  rw [parseElems, h]
  rfl

theorem parseMembers_close (f : Nat) (s r : List Char) (h : skipWs s = '}' :: r) :
    parseMembers (f + 1) s = some ([], r) := by
  rw [parseMembers, h]
  rfl

theorem parseMembers_comma (f : Nat) (s r : List Char) (h : skipWs s = ',' :: r) :
    parseMembers (f + 1) s =
      (match skipWs r with
        | '"' :: r2 => do
          let (k, r3) ← parseStrBody r2
          match skipWs r3 with
          | ':' :: r5 => do
            let (v, r6) ← parseVal f (skipWs r5)
            let (kvs, r7) ← parseMembers f r6
            some ((k, v) :: kvs, r7)
          | _ => none
        | _ => none) := by
  rw [parseMembers, h]
  rfl

theorem parseMembers_step (f : Nat) (s r r2 : List Char) (h : skipWs s = ',' :: r)
    (h2 : skipWs r = '"' :: r2) :
    parseMembers (f + 1) s =
      (do
        let (k, r3) ← parseStrBody r2
        match skipWs r3 with
        | ':' :: r5 => do
          let (v, r6) ← parseVal f (skipWs r5)
          let (kvs, r7) ← parseMembers f r6
          some ((k, v) :: kvs, r7)
        | _ => none) := by
  rw [parseMembers_comma f s r h, h2]
  rfl

theorem parseVal_lbrace_full (f : Nat) (t r2 k r3 r5 : List Char)
    (h : skipWs t = '"' :: r2) (h2 : parseStrBody r2 = some (k, r3))
    (h3 : skipWs r3 = ':' :: r5) :
    parseVal (f + 1) ('{' :: t) =
      (do
        let (v, r6) ← parseVal f (skipWs r5)
        let (kvs, r7) ← parseMembers f r6
        some (Json.obj ((k, v) :: kvs), r7)) := by
  rw [parseVal_lbrace_key f t r2 h, h2]
  simp [h3]

theorem parseMembers_full (f : Nat) (s r r2 k r3 r5 : List Char)
    (h : skipWs s = ',' :: r) (h2 : skipWs r = '"' :: r2)
    (h3 : parseStrBody r2 = some (k, r3)) (h4 : skipWs r3 = ':' :: r5) :
    parseMembers (f + 1) s =
      (do
        let (v, r6) ← parseVal f (skipWs r5)
        let (kvs, r7) ← parseMembers f r6
        some ((k, v) :: kvs, r7)) := by
  rw [parseMembers_step f s r r2 h h2, h3]
  simp [h4]

/-! ## The serializer/parser round trip

For every value `j`, every style, every nesting level and every
continuation `rest` that does not begin with a digit, parsing the
serialisation of `j` followed by `rest` returns exactly `j` and `rest`,
given fuel at least `fv j`.  The `entry` lemmas below handle the glue
around one element or member, with the continuation `tail` opaque. -/

theorem parse_arr_entry (f : Nat) (st : Option Nat) (lvlI : Nat) (x : Json)
    (tail : List Char)
    (hv : parseVal f (serRaw st lvlI x ++ tail) = some (x, tail)) :
    parseVal (f + 1) ('[' :: (openGlue st lvlI ++ (serRaw st lvlI x ++ tail))) =
      (do
        let (xs, r3) ← parseElems f tail
        some (Json.arr (x :: xs), r3)) := by
  obtain ⟨c, t, hser, hcws, hcne⟩ := serRaw_head st lvlI x
  have hskip : skipWs (openGlue st lvlI ++ (serRaw st lvlI x ++ tail))
      = c :: (t ++ tail) := by
    rw [skipWs_append_ws _ _ (openGlue_ws st lvlI), hser, List.cons_append,
        skipWs_cons_not_ws hcws]
  rw [parseVal_lbrack_elem f _ _ c hskip hcne]
  have harg : c :: (t ++ tail) = serRaw st lvlI x ++ tail := by
    rw [hser, List.cons_append]
  rw [harg, hv]
  simp

theorem parse_elems_entry (f : Nat) (st : Option Nat) (lvlI : Nat) (x : Json)
    (tg tail : List Char) (htgws : ∀ c ∈ tg, isWsC c = true)
    (hv : parseVal f (serRaw st lvlI x ++ tail) = some (x, tail)) :
    parseElems (f + 1) (',' :: (tg ++ (serRaw st lvlI x ++ tail))) =
      (do
        let (xs, r3) ← parseElems f tail
        some (x :: xs, r3)) := by
  obtain ⟨c, t, hser, hcws, _⟩ := serRaw_head st lvlI x
  rw [parseElems_step f _ _ (skipWs_cons_not_ws (by decide) _)]
  have hskip2 : skipWs (tg ++ (serRaw st lvlI x ++ tail)) = serRaw st lvlI x ++ tail := by
    rw [skipWs_append_ws _ _ htgws, hser, List.cons_append, skipWs_cons_not_ws hcws,
        ← List.cons_append, ← hser]
  rw [hskip2, hv]
  simp

theorem parse_obj_entry (f : Nat) (st : Option Nat) (lvlI : Nat) (k : List Char)
    (v : Json) (tail : List Char)
    (hv : parseVal f (serRaw st lvlI v ++ tail) = some (v, tail)) :
    parseVal (f + 1) ('{' :: (openGlue st lvlI
        ++ ('"' :: (escape k ++ ('"' :: (':' :: (' ' :: (serRaw st lvlI v ++ tail)))))))) =
      (do
        let (kvs, r7) ← parseMembers f tail
        some (Json.obj ((k, v) :: kvs), r7)) := by
  obtain ⟨c, t, hser, hcws, _⟩ := serRaw_head st lvlI v
  have hskip : skipWs (openGlue st lvlI
        ++ ('"' :: (escape k ++ ('"' :: (':' :: (' ' :: (serRaw st lvlI v ++ tail)))))))
      = '"' :: (escape k ++ ('"' :: (':' :: (' ' :: (serRaw st lvlI v ++ tail))))) := by
    rw [skipWs_append_ws _ _ (openGlue_ws st lvlI), skipWs_cons_not_ws (by decide)]
  have hstr := parseStrBody_escape k (':' :: (' ' :: (serRaw st lvlI v ++ tail)))
  have hcolon : skipWs (':' :: (' ' :: (serRaw st lvlI v ++ tail)))
      = ':' :: (' ' :: (serRaw st lvlI v ++ tail)) := skipWs_cons_not_ws (by decide) _
  rw [parseVal_lbrace_full f _ _ k _ _ hskip hstr hcolon]
  have hskipv : skipWs (' ' :: (serRaw st lvlI v ++ tail)) = serRaw st lvlI v ++ tail := by
    rw [skipWs_cons_ws (by decide), hser, List.cons_append, skipWs_cons_not_ws hcws,
        ← List.cons_append, ← hser]
  rw [hskipv, hv]
  simp

theorem parse_members_entry (f : Nat) (st : Option Nat) (lvlI : Nat) (k : List Char)
    (v : Json) (tg tail : List Char) (htgws : ∀ c ∈ tg, isWsC c = true)
    (hv : parseVal f (serRaw st lvlI v ++ tail) = some (v, tail)) :
    parseMembers (f + 1) (',' :: (tg
        ++ ('"' :: (escape k ++ ('"' :: (':' :: (' ' :: (serRaw st lvlI v ++ tail)))))))) =
      (do
        let (kvs, r7) ← parseMembers f tail
        some ((k, v) :: kvs, r7)) := by
  obtain ⟨c, t, hser, hcws, _⟩ := serRaw_head st lvlI v
  have hskip2 : skipWs (tg
        ++ ('"' :: (escape k ++ ('"' :: (':' :: (' ' :: (serRaw st lvlI v ++ tail)))))))
      = '"' :: (escape k ++ ('"' :: (':' :: (' ' :: (serRaw st lvlI v ++ tail))))) := by
    rw [skipWs_append_ws _ _ htgws, skipWs_cons_not_ws (by decide)]
  have hstr := parseStrBody_escape k (':' :: (' ' :: (serRaw st lvlI v ++ tail)))
  have hcolon : skipWs (':' :: (' ' :: (serRaw st lvlI v ++ tail)))
      = ':' :: (' ' :: (serRaw st lvlI v ++ tail)) := skipWs_cons_not_ws (by decide) _
  rw [parseMembers_full f _ _ _ k _ _ (skipWs_cons_not_ws (by decide) _) hskip2 hstr hcolon]
  have hskipv : skipWs (' ' :: (serRaw st lvlI v ++ tail)) = serRaw st lvlI v ++ tail := by
    rw [skipWs_cons_ws (by decide), hser, List.cons_append, skipWs_cons_not_ws hcws,
        ← List.cons_append, ← hser]
  rw [hskipv, hv]
  simp

mutual

theorem parse_serRaw :
    ∀ (st : Option Nat) (lvl : Nat) (j : Json) (rest : List Char) (fuel : Nat),
      fv j ≤ fuel → noDigitHead rest = true →
      parseVal fuel (serRaw st lvl j ++ rest) = some (j, rest)
  | _, _, j, _, 0, hf, _ => absurd hf (by have := fv_pos j; omega)
  | st, lvl, .null, rest, fuel + 1, _, _ => by
    simp only [serRaw, List.cons_append, List.nil_append]
    rw [parseVal]
  | st, lvl, .bool true, rest, fuel + 1, _, _ => by
    show parseVal (fuel + 1) ('t' :: ('r' :: ('u' :: ('e' :: rest)))) = _
    rw [parseVal]
  | st, lvl, .bool false, rest, fuel + 1, _, _ => by
    show parseVal (fuel + 1) ('f' :: ('a' :: ('l' :: ('s' :: ('e' :: rest))))) = _
    rw [parseVal]
  | st, lvl, .num (.ofNat m), rest, fuel + 1, _, hr => by
    simp only [serRaw, intChars]
    obtain ⟨d, ds, hd⟩ : ∃ d ds, natDigits m = d :: ds := by
      cases hx : natDigits m with
      | nil => exact absurd hx (natDigits_ne_nil m)
      | cons d ds => exact ⟨d, ds, rfl⟩
    have hdig : d.isDigit = true :=
      natDigits_all_digit m d (by rw [hd]; exact List.mem_cons_self ..)
    rw [hd, List.cons_append, parseVal_digit_head fuel d _ hdig, ← List.cons_append, ← hd,
        parseNat_natDigits m rest hr]
    rfl
  | st, lvl, .num (.negSucc m), rest, fuel + 1, _, hr => by
    simp only [serRaw, intChars, List.cons_append]
    rw [parseVal, parseNat_natDigits (m + 1) rest hr]
    simp [Int.negSucc_eq]
  | st, lvl, .str s, rest, fuel + 1, _, _ => by
    simp only [serRaw, strLit, List.cons_append, List.append_assoc, List.singleton_append,
      List.nil_append]
    rw [parseVal, parseStrBody_escape s rest]
  | st, lvl, .arr [], rest, fuel + 1, _, _ => by
    simp only [serRaw, List.cons_append, List.nil_append]
    exact parseVal_lbrack_close fuel _ rest (skipWs_cons_not_ws (by decide) rest)
  | st, lvl, .arr (x :: xs), rest, fuel + 1, hf, hr => by
    have hfx : fv x ≤ fuel := by simp only [fv] at hf; omega
    have hfxs : fl xs ≤ fuel := by simp only [fv] at hf; omega
    simp only [serRaw, List.cons_append, List.append_assoc, List.singleton_append,
      List.nil_append]
    rw [parse_arr_entry fuel st (lvl + 1) x _
          (parse_serRaw st (lvl + 1) x _ fuel hfx (noDigitHead_list st (lvl + 1) lvl xs rest)),
        parse_serList st (lvl + 1) lvl xs rest fuel hfxs]
    simp
  | st, lvl, .obj [], rest, fuel + 1, _, _ => by
    simp only [serRaw, List.cons_append, List.nil_append]
    exact parseVal_lbrace_close fuel _ rest (skipWs_cons_not_ws (by decide) rest)
  | st, lvl, .obj ((k, v) :: kvs), rest, fuel + 1, hf, hr => by
    have hfv : fv v ≤ fuel := by simp only [fv] at hf; omega
    have hfk : fk kvs ≤ fuel := by simp only [fv] at hf; omega
    simp only [serRaw, strLit, colonGlue, List.cons_append, List.append_assoc,
      List.singleton_append, List.nil_append]
    rw [parse_obj_entry fuel st (lvl + 1) k v _
          (parse_serRaw st (lvl + 1) v _ fuel hfv (noDigitHead_kvs st (lvl + 1) lvl kvs rest)),
        parse_serKVs st (lvl + 1) lvl kvs rest fuel hfk]
    simp
  termination_by _ _ j _ _ => sizeOf j

theorem parse_serList :
    ∀ (st : Option Nat) (lvl lvl' : Nat) (xs : List Json) (rest : List Char) (fuel : Nat),
      fl xs ≤ fuel →
      parseElems fuel (serList st lvl xs ++ (closeGlue st lvl' ++ ']' :: rest))
        = some (xs, rest)
  | _, _, _, xs, _, 0, hf => absurd hf (by have := fl_pos xs; omega)
  | st, lvl, lvl', [], rest, fuel + 1, _ => by
    apply parseElems_close
    simp only [serList, List.nil_append]
    rw [skipWs_append_ws _ _ (closeGlue_ws st lvl'), skipWs_cons_not_ws (by decide)]
  | st, lvl, lvl', x :: xs, rest, fuel + 1, hf => by
    have hfx : fv x ≤ fuel := by simp only [fl] at hf; omega
    have hfxs : fl xs ≤ fuel := by simp only [fl] at hf; omega
    obtain ⟨tg, htg, htgws⟩ := sepGlue_shape st lvl
    simp only [serList, List.append_assoc]
    rw [htg, List.cons_append,
        parse_elems_entry fuel st lvl x tg _ htgws
          (parse_serRaw st lvl x _ fuel hfx (noDigitHead_list st lvl lvl' xs rest)),
        parse_serList st lvl lvl' xs rest fuel hfxs]
    simp
  termination_by _ _ _ xs _ _ => sizeOf xs

theorem parse_serKVs :
    ∀ (st : Option Nat) (lvl lvl' : Nat) (kvs : List (List Char × Json))
      (rest : List Char) (fuel : Nat),
      fk kvs ≤ fuel →
      parseMembers fuel (serKVs st lvl kvs ++ (closeGlue st lvl' ++ '}' :: rest))
        = some (kvs, rest)
  | _, _, _, kvs, _, 0, hf => absurd hf (by have := fk_pos kvs; omega)
  | st, lvl, lvl', [], rest, fuel + 1, _ => by
    apply parseMembers_close
    simp only [serKVs, List.nil_append]
    rw [skipWs_append_ws _ _ (closeGlue_ws st lvl'), skipWs_cons_not_ws (by decide)]
  | st, lvl, lvl', (k, v) :: kvs, rest, fuel + 1, hf => by
    have hfv : fv v ≤ fuel := by simp only [fk] at hf; omega
    have hfk : fk kvs ≤ fuel := by simp only [fk] at hf; omega
    obtain ⟨tg, htg, htgws⟩ := sepGlue_shape st lvl
    simp only [serKVs, strLit, colonGlue, List.cons_append, List.append_assoc,
      List.singleton_append, List.nil_append]
    rw [htg, List.cons_append,
        parse_members_entry fuel st lvl k v tg _ htgws
          (parse_serRaw st lvl v _ fuel hfv (noDigitHead_kvs st lvl lvl' kvs rest)),
        parse_serKVs st lvl lvl' kvs rest fuel hfk]
    simp
  termination_by _ _ _ kvs _ _ => sizeOf kvs

end

/-! ## Corollaries of the round trip -/

mutual

theorem fv_le : ∀ (st : Option Nat) (lvl : Nat) (j : Json),
    fv j ≤ (serRaw st lvl j).length
  | _, _, .null => by simp [fv, serRaw]
  | _, _, .bool true => by simp [fv, serRaw]
  | _, _, .bool false => by simp [fv, serRaw]
  | st, lvl, .num n => by
    have : (serRaw st lvl (.num n)).length ≠ 0 := by
      obtain ⟨c, t, hser, -, -⟩ := serRaw_head st lvl (.num n)
      simp [hser]
    simp only [fv]; omega
  | st, lvl, .str s => by
    simp only [fv, serRaw, strLit, List.length_cons]
    omega
  | _, _, .arr [] => by simp [fv, serRaw]
  | st, lvl, .arr (x :: xs) => by
    have h1 := fv_le st (lvl + 1) x
    have h2 := fl_le st (lvl + 1) xs
    simp only [fv, serRaw, List.length_cons, List.length_append]
    omega
  | _, _, .obj [] => by simp [fv, serRaw]
  | st, lvl, .obj ((k, v) :: kvs) => by
    have h1 := fv_le st (lvl + 1) v
    have h2 := fk_le st (lvl + 1) kvs
    simp only [fv, serRaw, List.length_cons, List.length_append]
    omega

theorem fl_le : ∀ (st : Option Nat) (lvl : Nat) (xs : List Json),
    fl xs ≤ (serList st lvl xs).length + 1
  | _, _, [] => by simp [fl, serList]
  | st, lvl, x :: xs => by
    have h1 := fv_le st lvl x
    have h2 := fl_le st lvl xs
    have h3 : 1 ≤ (sepGlue st lvl).length := by
      obtain ⟨t, ht, -⟩ := sepGlue_shape st lvl
      simp [ht]
    simp only [fl, serList, List.length_append]
    omega

theorem fk_le : ∀ (st : Option Nat) (lvl : Nat) (kvs : List (List Char × Json)),
    fk kvs ≤ (serKVs st lvl kvs).length + 1
  | _, _, [] => by simp [fk, serKVs]
  | st, lvl, (k, v) :: kvs => by
    have h1 := fv_le st lvl v
    have h2 := fk_le st lvl kvs
    have h3 : 1 ≤ (sepGlue st lvl).length := by
      obtain ⟨t, ht, -⟩ := sepGlue_shape st lvl
      simp [ht]
    simp only [fk, serKVs, List.length_append]
    omega

end

theorem skipWs_all_ws : ∀ {l : List Char}, (∀ c ∈ l, isWsC c = true) → skipWs l = []
  | [], _ => rfl
  | c :: cs, h => by
    rw [skipWs_cons_ws (h c (List.mem_cons_self ..))]
    exact skipWs_all_ws (fun x hx => h x (List.mem_cons_of_mem _ hx))

theorem ws_not_digit {c : Char} (h : isWsC c = true) : c.isDigit = false := by
  simp only [isWsC, Bool.or_eq_true, decide_eq_true_eq] at h
  rcases h with ((h1 | h1) | h1) | h1 <;> (subst h1; decide)

/-- `json.loads` of a canonical form followed by trailing whitespace (as the
reader produces when rejoining a framed block) returns the canonicalised
value. -/
theorem loads_dumps_append (st : Option Nat) (j : Json) (ext : List Char)
    (hws : ∀ c ∈ ext, isWsC c = true) :
    loads (dumps st j ++ ext) = some (canon j) := by
  obtain ⟨c, t, hser, hcws, -⟩ := serRaw_head st 0 (canon j)
  have hskip : skipWs (dumps st j ++ ext) = serRaw st 0 (canon j) ++ ext := by
    rw [dumps, hser, List.cons_append, skipWs_cons_not_ws hcws, ← List.cons_append, ← hser]
  have hnd : noDigitHead ext = true := by
    cases ext with
    | nil => rfl
    | cons e es =>
      simp only [noDigitHead, Bool.not_eq_true']
      exact ws_not_digit (hws e (List.mem_cons_self ..))
  have hfuel : fv (canon j) ≤ (dumps st j ++ ext).length + 1 := by
    have h1 := fv_le st 0 (canon j)
    have : (dumps st j).length = (serRaw st 0 (canon j)).length := by rw [dumps]
    simp only [List.length_append]
    omega
  have hparse := parse_serRaw st 0 (canon j) ext ((dumps st j ++ ext).length + 1) hfuel hnd
  rw [loads, hskip, hparse]
  simp [skipWs_all_ws hws]

theorem loads_dumps (st : Option Nat) (j : Json) : loads (dumps st j) = some (canon j) := by
  have := loads_dumps_append st j [] (by intro c hc; cases hc)
  simpa using this

/-- The serializer is injective (at any one style and level). -/
theorem serRaw_inj (st : Option Nat) (lvl : Nat) {a b : Json}
    (h : serRaw st lvl a = serRaw st lvl b) : a = b := by
  have ha := parse_serRaw st lvl a [] (max (fv a) (fv b)) (le_max_left ..) rfl
  have hb := parse_serRaw st lvl b [] (max (fv a) (fv b)) (le_max_right ..) rfl
  rw [h, hb] at ha
  simpa using ha.symm

/-- Two values have identical canonical text at one style iff they have the
same canonicalisation. -/
theorem dumps_eq_iff (st : Option Nat) (a b : Json) :
    dumps st a = dumps st b ↔ canon a = canon b := by
  constructor
  · exact fun h => serRaw_inj st 0 h
  · intro h; rw [dumps, dumps, h]

/-! ## The line structure of indented output

To reason about the framer on serialized stores we describe the indented
serialisation as a list of newline-free lines (`serLines`) and prove it
equal to `serRaw` joined with newlines.  Every such line, and the compact
serialisation as a whole, then is shown never to `rstrip` to the `--`
separator. -/

def mapHead (f : List Char → List Char) : List (List Char) → List (List Char)
  | [] => []
  | l :: ls => f l :: ls

def mapLast (f : List Char → List Char) : List (List Char) → List (List Char)
  | [] => []
  | [l] => [f l]
  | l :: l2 :: ls => l :: mapLast f (l2 :: ls)

/-- Join lines with newlines (no trailing newline). -/
def interNL : List (List Char) → List Char
  | [] => []
  | [l] => l
  | l :: l2 :: ls => l ++ '\n' :: interNL (l2 :: ls)

mutual

def serLines (n lvl : Nat) : Json → List (List Char)
  | .null => [['n', 'u', 'l', 'l']]
  | .bool b => [if b then ['t', 'r', 'u', 'e'] else ['f', 'a', 'l', 's', 'e']]
  | .num i => [intChars i]
  | .str s => [strLit s]
  | .arr [] => [['[', ']']]
  | .arr (x :: xs) =>
    ['['] :: (serLinesL n (lvl + 1) (x :: xs) ++ [pad n lvl ++ [']']])
  | .obj [] => [['{', '}']]
  | .obj (kv :: kvs) =>
    ['{'] :: (serLinesK n (lvl + 1) (kv :: kvs) ++ [pad n lvl ++ ['}']])

def serLinesL (n lvl : Nat) : List Json → List (List Char)
  | [] => []
  | [x] => mapHead (fun l => pad n lvl ++ l) (serLines n lvl x)
  | x :: y :: ys =>
    mapLast (fun l => l ++ [','])
      (mapHead (fun l => pad n lvl ++ l) (serLines n lvl x))
      ++ serLinesL n lvl (y :: ys)

def serLinesK (n lvl : Nat) : List (List Char × Json) → List (List Char)
  | [] => []
  | [(k, v)] =>
    mapHead (fun l => (pad n lvl ++ strLit k ++ colonGlue) ++ l) (serLines n lvl v)
  | (k, v) :: kv2 :: kvs =>
    mapLast (fun l => l ++ [','])
      (mapHead (fun l => (pad n lvl ++ strLit k ++ colonGlue) ++ l) (serLines n lvl v))
      ++ serLinesK n lvl (kv2 :: kvs)

end

theorem mapHead_ne_nil {f : List Char → List Char} {ls : List (List Char)}
    (h : ls ≠ []) : mapHead f ls ≠ [] := by
  cases ls with
  | nil => exact absurd rfl h
  | cons l ls => simp [mapHead]

theorem mapLast_ne_nil {f : List Char → List Char} {ls : List (List Char)}
    (h : ls ≠ []) : mapLast f ls ≠ [] := by
  cases ls with
  | nil => exact absurd rfl h
  | cons l ls => cases ls <;> simp [mapLast]

theorem serLines_ne_nil (n lvl : Nat) : ∀ j : Json, serLines n lvl j ≠ [] := by
  intro j
  cases j with
  | bool b => cases b <;> simp [serLines]
  | arr xs => cases xs <;> simp [serLines]
  | obj kvs => cases kvs <;> simp [serLines]
  | _ => simp [serLines]

theorem interNL_cons_cons (l l2 : List Char) (ls : List (List Char)) :
    interNL (l :: l2 :: ls) = l ++ '\n' :: interNL (l2 :: ls) := rfl

theorem interNL_cons_of_ne (l : List Char) (ls : List (List Char)) (h : ls ≠ []) :
    interNL (l :: ls) = l ++ '\n' :: interNL ls := by
  cases ls with
  | nil => exact absurd rfl h
  | cons l2 ls2 => exact interNL_cons_cons ..

theorem interNL_append :
    ∀ (a b : List (List Char)), a ≠ [] → b ≠ [] →
      interNL (a ++ b) = interNL a ++ '\n' :: interNL b
  | [], _, ha, _ => absurd rfl ha
  | [l], b, _, hb => by
    cases b with
    | nil => exact absurd rfl hb
    | cons l2 ls => simp [interNL]
  | l :: l2 :: ls, b, _, hb => by
    have ih := interNL_append (l2 :: ls) b (by simp) hb
    rw [List.cons_append] at ih
    rw [List.cons_append, List.cons_append]
    rw [interNL_cons_cons, interNL_cons_cons, ih]
    simp

theorem interNL_mapHead (p : List Char) :
    ∀ (ls : List (List Char)), ls ≠ [] →
      interNL (mapHead (fun l => p ++ l) ls) = p ++ interNL ls
  | [], h => absurd rfl h
  | [l], _ => by simp [mapHead, interNL]
  | l :: l2 :: ls, _ => by simp [mapHead, interNL]

theorem interNL_mapLast (s : List Char) :
    ∀ (ls : List (List Char)), ls ≠ [] →
      interNL (mapLast (fun l => l ++ s) ls) = interNL ls ++ s
  | [], h => absurd rfl h
  | [l], _ => by simp [mapLast, interNL]
  | l :: l2 :: ls, _ => by
    have ih := interNL_mapLast s (l2 :: ls) (by simp)
    cases hx : mapLast (fun l => l ++ s) (l2 :: ls) with
    | nil => exact absurd hx (mapLast_ne_nil (by simp))
    | cons z zs =>
      have hstep : mapLast (fun l => l ++ s) (l :: l2 :: ls)
          = l :: mapLast (fun l => l ++ s) (l2 :: ls) := rfl
      rw [hstep, hx, interNL_cons_cons, ← hx, ih, interNL_cons_cons]
      simp

theorem serLinesL_ne_nil (n lvl : Nat) :
    ∀ (x : Json) (xs : List Json), serLinesL n lvl (x :: xs) ≠ [] := by
  intro x xs
  cases xs with
  | nil => exact mapHead_ne_nil (serLines_ne_nil n lvl x)
  | cons y ys =>
    simp only [serLinesL]
    intro h
    rcases List.append_eq_nil.mp h with ⟨h1, -⟩
    exact mapLast_ne_nil (mapHead_ne_nil (serLines_ne_nil n lvl x)) h1

theorem serLinesK_ne_nil (n lvl : Nat) :
    ∀ (kv : List Char × Json) (kvs : List (List Char × Json)),
      serLinesK n lvl (kv :: kvs) ≠ [] := by
  intro kv kvs
  obtain ⟨k, v⟩ := kv
  cases kvs with
  | nil => exact mapHead_ne_nil (serLines_ne_nil n lvl v)
  | cons kv2 kvs =>
    simp only [serLinesK]
    intro h
    rcases List.append_eq_nil.mp h with ⟨h1, -⟩
    exact mapLast_ne_nil (mapHead_ne_nil (serLines_ne_nil n lvl v)) h1

mutual

/-- The indent-mode serialisation is its lines joined with newlines. -/
theorem serRaw_eq_interNL (n lvl : Nat) :
    ∀ j : Json, serRaw (some n) lvl j = interNL (serLines n lvl j)
  | .null => rfl
  | .bool true => rfl
  | .bool false => rfl
  | .num i => rfl
  | .str s => rfl
  | .arr [] => rfl
  | .arr (x :: xs) => by
    have h1 := serLinesL_eq n (lvl + 1) x xs
    simp only [serRaw, serLines, openGlue, closeGlue]
    rw [interNL_cons_of_ne _ _ (by simp),
        interNL_append (serLinesL n (lvl + 1) (x :: xs)) [pad n lvl ++ [']']]
          (serLinesL_ne_nil n (lvl + 1) x xs) (by simp)]
    simp only [interNL, h1]
    simp
  | .obj [] => rfl
  | .obj ((k, v) :: kvs) => by
    have h1 := serLinesK_eq n (lvl + 1) k v kvs
    simp only [serRaw, serLines, openGlue, closeGlue]
    rw [interNL_cons_of_ne _ _ (by simp),
        interNL_append (serLinesK n (lvl + 1) ((k, v) :: kvs)) [pad n lvl ++ ['}']]
          (serLinesK_ne_nil n (lvl + 1) (k, v) kvs) (by simp)]
    simp only [interNL, h1]
    simp
  termination_by j => sizeOf j

theorem serLinesL_eq (n lvl : Nat) :
    ∀ (x : Json) (xs : List Json),
      interNL (serLinesL n lvl (x :: xs))
        = pad n lvl ++ (serRaw (some n) lvl x ++ serList (some n) lvl xs)
  | x, [] => by
    have h1 := serRaw_eq_interNL n lvl x
    simp only [serLinesL, serList]
    rw [interNL_mapHead (pad n lvl) _ (serLines_ne_nil n lvl x), ← h1]
    simp
  | x, y :: ys => by
    have h1 := serRaw_eq_interNL n lvl x
    have ih := serLinesL_eq n lvl y ys
    simp only [serLinesL]
    rw [interNL_append _ _
          (mapLast_ne_nil (mapHead_ne_nil (serLines_ne_nil n lvl x)))
          (serLinesL_ne_nil n lvl y ys),
        interNL_mapLast [','] _ (mapHead_ne_nil (serLines_ne_nil n lvl x)),
        interNL_mapHead (pad n lvl) _ (serLines_ne_nil n lvl x), ← h1, ih]
    simp only [serList, sepGlue]
    simp
  termination_by x xs => sizeOf (x :: xs)

theorem serLinesK_eq (n lvl : Nat) :
    ∀ (k : List Char) (v : Json) (kvs : List (List Char × Json)),
      interNL (serLinesK n lvl ((k, v) :: kvs))
        = pad n lvl ++ (strLit k ++ (colonGlue ++ (serRaw (some n) lvl v
            ++ serKVs (some n) lvl kvs)))
  | k, v, [] => by
    have h1 := serRaw_eq_interNL n lvl v
    simp only [serLinesK, serKVs]
    rw [interNL_mapHead (pad n lvl ++ strLit k ++ colonGlue) _ (serLines_ne_nil n lvl v),
        ← h1]
    simp
  | k, v, (k2, v2) :: kvs => by
    have h1 := serRaw_eq_interNL n lvl v
    have ih := serLinesK_eq n lvl k2 v2 kvs
    simp only [serLinesK]
    rw [interNL_append _ _
          (mapLast_ne_nil (mapHead_ne_nil (serLines_ne_nil n lvl v)))
          (serLinesK_ne_nil n lvl (k2, v2) kvs),
        interNL_mapLast [','] _ (mapHead_ne_nil (serLines_ne_nil n lvl v)),
        interNL_mapHead (pad n lvl ++ strLit k ++ colonGlue) _ (serLines_ne_nil n lvl v),
        ← h1, ih]
    simp only [serKVs, sepGlue]
    simp
  termination_by k v kvs => sizeOf ((k, v) :: kvs)

end

/-! ## No serialized line is the separator -/

/-- A clean line: no newline, no carriage return, and not literally `--`. -/
def lineClean (l : List Char) : Prop := '\n' ∉ l ∧ '\r' ∉ l ∧ l ≠ ['-', '-']

theorem ne_dashdash_of_mem {l : List Char} {c : Char} (hc : c ∈ l) (hne : c ≠ '-') :
    l ≠ ['-', '-'] := by
  intro h
  subst h
  rcases List.mem_cons.mp hc with h1 | h1
  · exact hne h1
  · exact hne (List.mem_singleton.mp h1)

theorem digit_ne_nl {c : Char} (h : c.isDigit = true) : c ≠ '\n' := by
  intro he; subst he; exact absurd h (by decide)

theorem digit_ne_cr {c : Char} (h : c.isDigit = true) : c ≠ '\r' := by
  intro he; subst he; exact absurd h (by decide)

theorem digit_ne_dash {c : Char} (h : c.isDigit = true) : c ≠ '-' := by
  intro he; subst he; exact absurd h (by decide)

theorem intChars_clean (i : Int) : lineClean (intChars i) := by
  cases i with
  | ofNat m =>
    obtain ⟨d, ds, hd⟩ : ∃ d ds, natDigits m = d :: ds := by
      cases hx : natDigits m with
      | nil => exact absurd hx (natDigits_ne_nil m)
      | cons d ds => exact ⟨d, ds, rfl⟩
    refine ⟨?_, ?_, ?_⟩
    · intro h; exact digit_ne_nl (natDigits_all_digit m '\n' h) rfl
    · intro h; exact digit_ne_cr (natDigits_all_digit m '\r' h) rfl
    · refine ne_dashdash_of_mem (c := d) ?_ ?_
      · simp only [intChars, hd]; exact List.mem_cons_self ..
      · exact digit_ne_dash (natDigits_all_digit m d (by rw [hd]; exact List.mem_cons_self ..))
  | negSucc m =>
    obtain ⟨d, ds, hd⟩ : ∃ d ds, natDigits (m + 1) = d :: ds := by
      cases hx : natDigits (m + 1) with
      | nil => exact absurd hx (natDigits_ne_nil (m + 1))
      | cons d ds => exact ⟨d, ds, rfl⟩
    have hdig : d.isDigit = true :=
      natDigits_all_digit (m + 1) d (by rw [hd]; exact List.mem_cons_self ..)
    refine ⟨?_, ?_, ?_⟩
    · intro h
      rcases List.mem_cons.mp h with h1 | h1
      · exact absurd h1.symm (by decide)
      · exact digit_ne_nl (natDigits_all_digit (m + 1) '\n' h1) rfl
    · intro h
      rcases List.mem_cons.mp h with h1 | h1
      · exact absurd h1.symm (by decide)
      · exact digit_ne_cr (natDigits_all_digit (m + 1) '\r' h1) rfl
    · refine ne_dashdash_of_mem (c := d) ?_ (digit_ne_dash hdig)
      simp only [intChars, hd]
      exact List.mem_cons_of_mem _ (List.mem_cons_self ..)

theorem hexDigitChar_clean {d : Nat} (h : d < 16) :
    hexDigitChar d ≠ '\n' ∧ hexDigitChar d ≠ '\r' := by
  interval_cases d <;> exact ⟨by decide, by decide⟩

theorem escChar_clean (c : Char) : '\n' ∉ escChar c ∧ '\r' ∉ escChar c := by
  by_cases h1 : c = '"'
  · subst h1; exact ⟨by decide, by decide⟩
  · by_cases h2 : c = '\\'
    · subst h2; exact ⟨by decide, by decide⟩
    · by_cases h3 : c = '\n'
      · subst h3; exact ⟨by decide, by decide⟩
      · by_cases h4 : c = '\t'
        · subst h4; exact ⟨by decide, by decide⟩
        · by_cases h5 : c = '\r'
          · subst h5; exact ⟨by decide, by decide⟩
          · by_cases h6 : c = '\x08'
            · subst h6; exact ⟨by decide, by decide⟩
            · by_cases h7 : c = '\x0c'
              · subst h7; exact ⟨by decide, by decide⟩
              · by_cases h8 : c.toNat < 32
                · have he : escChar c =
                      ['\\', 'u', '0', '0', hexDigitChar (c.toNat / 16),
                        hexDigitChar (c.toNat % 16)] := by
                    simp [escChar, h1, h2, h3, h4, h5, h6, h7, h8]
                  have hd1 := hexDigitChar_clean (d := c.toNat / 16) (by omega)
                  have hd2 := hexDigitChar_clean (d := c.toNat % 16) (Nat.mod_lt _ (by omega))
                  constructor
                  · rw [he]
                    intro hm
                    simp only [List.mem_cons, List.not_mem_nil, or_false] at hm
                    rcases hm with h | h | h | h | h | h
                    · exact absurd h (by decide)
                    · exact absurd h (by decide)
                    · exact absurd h (by decide)
                    · exact absurd h (by decide)
                    · exact hd1.1 h.symm
                    · exact hd2.1 h.symm
                  · rw [he]
                    intro hm
                    simp only [List.mem_cons, List.not_mem_nil, or_false] at hm
                    rcases hm with h | h | h | h | h | h
                    · exact absurd h (by decide)
                    · exact absurd h (by decide)
                    · exact absurd h (by decide)
                    · exact absurd h (by decide)
                    · exact hd1.2 h.symm
                    · exact hd2.2 h.symm
                · have he : escChar c = [c] := by
                    simp [escChar, h1, h2, h3, h4, h5, h6, h7, h8]
                  rw [he]
                  constructor <;> intro hm <;>
                    (have h := List.mem_singleton.mp hm; subst h; exact h8 (by decide))

theorem escape_clean (s : List Char) : '\n' ∉ escape s ∧ '\r' ∉ escape s := by
  constructor <;> intro hm <;>
    (simp only [escape, List.mem_flatten, List.mem_map] at hm;
     obtain ⟨l, ⟨c, -, hcl⟩, hml⟩ := hm;
     subst hcl)
  · exact (escChar_clean c).1 hml
  · exact (escChar_clean c).2 hml

theorem strLit_clean (k : List Char) : lineClean (strLit k) := by
  refine ⟨?_, ?_, ?_⟩
  · intro h
    rcases List.mem_cons.mp h with h1 | h1
    · exact absurd h1.symm (by decide)
    · rcases List.mem_append.mp h1 with h2 | h2
      · exact (escape_clean k).1 h2
      · exact absurd (List.mem_singleton.mp h2).symm (by decide)
  · intro h
    rcases List.mem_cons.mp h with h1 | h1
    · exact absurd h1.symm (by decide)
    · rcases List.mem_append.mp h1 with h2 | h2
      · exact (escape_clean k).2 h2
      · exact absurd (List.mem_singleton.mp h2).symm (by decide)
  · exact ne_dashdash_of_mem (List.mem_cons_self ..) (by decide)

theorem pad_no_crlf (n lvl : Nat) : '\n' ∉ pad n lvl ∧ '\r' ∉ pad n lvl := by
  constructor <;> intro h <;> exact absurd (List.eq_of_mem_replicate h).symm (by decide)

theorem clean_pad_prefix {h : List Char} (hc : lineClean h) (n lvl : Nat) :
    lineClean (pad n lvl ++ h) := by
  obtain ⟨h1, h2, h3⟩ := hc
  refine ⟨?_, ?_, ?_⟩
  · intro hm
    rcases List.mem_append.mp hm with hm | hm
    · exact (pad_no_crlf n lvl).1 hm
    · exact h1 hm
  · intro hm
    rcases List.mem_append.mp hm with hm | hm
    · exact (pad_no_crlf n lvl).2 hm
    · exact h2 hm
  · cases hp : pad n lvl with
    | nil => simpa [hp] using h3
    | cons c cs =>
      have hcsp : c = ' ' := by
        have : c ∈ pad n lvl := by rw [hp]; exact List.mem_cons_self ..
        exact List.eq_of_mem_replicate this
      subst hcsp
      exact ne_dashdash_of_mem (l := (' ' :: cs) ++ h) (List.mem_cons_self ..) (by decide)

theorem clean_key_prefix {h : List Char} (hc : lineClean h) (n lvl : Nat) (k : List Char) :
    lineClean ((pad n lvl ++ strLit k ++ colonGlue) ++ h) := by
  obtain ⟨h1, h2, h3⟩ := hc
  have hq : '"' ∈ (pad n lvl ++ strLit k ++ colonGlue) ++ h := by
    apply List.mem_append_left
    apply List.mem_append_left
    apply List.mem_append_right
    exact List.mem_cons_self ..
  refine ⟨?_, ?_, ne_dashdash_of_mem hq (by decide)⟩
  · intro hm
    rcases List.mem_append.mp hm with hm | hm
    · rcases List.mem_append.mp hm with hm | hm
      · rcases List.mem_append.mp hm with hm | hm
        · exact (pad_no_crlf n lvl).1 hm
        · exact (strLit_clean k).1 hm
      · rcases List.mem_cons.mp hm with hm | hm
        · exact absurd hm.symm (by decide)
        · exact absurd (List.mem_singleton.mp hm).symm (by decide)
    · exact h1 hm
  · intro hm
    rcases List.mem_append.mp hm with hm | hm
    · rcases List.mem_append.mp hm with hm | hm
      · rcases List.mem_append.mp hm with hm | hm
        · exact (pad_no_crlf n lvl).2 hm
        · exact (strLit_clean k).2.1 hm
      · rcases List.mem_cons.mp hm with hm | hm
        · exact absurd hm.symm (by decide)
        · exact absurd (List.mem_singleton.mp hm).symm (by decide)
    · exact h2 hm

theorem clean_comma_suffix {h : List Char} (hc : lineClean h) :
    lineClean (h ++ [',']) := by
  obtain ⟨h1, h2, _⟩ := hc
  refine ⟨?_, ?_, ?_⟩
  · intro hm
    rcases List.mem_append.mp hm with hm | hm
    · exact h1 hm
    · exact absurd (List.mem_singleton.mp hm).symm (by decide)
  · intro hm
    rcases List.mem_append.mp hm with hm | hm
    · exact h2 hm
    · exact absurd (List.mem_singleton.mp hm).symm (by decide)
  · exact ne_dashdash_of_mem (List.mem_append_right _ (List.mem_singleton.mpr rfl))
      (by decide)

theorem clean_close_line (n lvl : Nat) (c : Char) (hnl : c ≠ '\n') (hcr : c ≠ '\r')
    (hdash : c ≠ '-') : lineClean (pad n lvl ++ [c]) := by
  refine ⟨?_, ?_, ?_⟩
  · intro hm
    rcases List.mem_append.mp hm with hm | hm
    · exact (pad_no_crlf n lvl).1 hm
    · exact hnl (List.mem_singleton.mp hm).symm
  · intro hm
    rcases List.mem_append.mp hm with hm | hm
    · exact (pad_no_crlf n lvl).2 hm
    · exact hcr (List.mem_singleton.mp hm).symm
  · exact ne_dashdash_of_mem (List.mem_append_right _ (List.mem_singleton.mpr rfl)) hdash

theorem mem_mapHead {f : List Char → List Char} :
    ∀ {ls : List (List Char)} {l : List Char}, l ∈ mapHead f ls →
      ∃ h ∈ ls, l = h ∨ l = f h := by
  intro ls l hm
  cases ls with
  | nil => cases hm
  | cons h t =>
    rcases List.mem_cons.mp hm with h1 | h1
    · exact ⟨h, List.mem_cons_self .., Or.inr h1⟩
    · exact ⟨l, List.mem_cons_of_mem _ h1, Or.inl rfl⟩

theorem mem_mapLast {f : List Char → List Char} :
    ∀ {ls : List (List Char)} {l : List Char}, l ∈ mapLast f ls →
      ∃ h ∈ ls, l = h ∨ l = f h
  | [], _, hm => by cases hm
  | [x], l, hm => by
    rcases List.mem_singleton.mp hm with h
    exact ⟨x, List.mem_singleton.mpr rfl, Or.inr h⟩
  | x :: y :: ys, l, hm => by
    rcases List.mem_cons.mp hm with h1 | h1
    · exact ⟨x, List.mem_cons_self .., Or.inl h1⟩
    · obtain ⟨h, hh, hor⟩ := mem_mapLast h1
      exact ⟨h, List.mem_cons_of_mem _ hh, hor⟩

mutual

theorem serLines_clean (n lvl : Nat) :
    ∀ (j : Json), ∀ l ∈ serLines n lvl j, lineClean l
  | .null, l, hm => by
    have h := List.mem_singleton.mp hm; subst h; exact ⟨by decide, by decide, by decide⟩
  | .bool true, l, hm => by
    have h := List.mem_singleton.mp hm; subst h; exact ⟨by decide, by decide, by decide⟩
  | .bool false, l, hm => by
    have h := List.mem_singleton.mp hm; subst h; exact ⟨by decide, by decide, by decide⟩
  | .num i, l, hm => by
    have h := List.mem_singleton.mp hm; subst h; exact intChars_clean i
  | .str s, l, hm => by
    have h := List.mem_singleton.mp hm; subst h; exact strLit_clean s
  | .arr [], l, hm => by
    have h := List.mem_singleton.mp hm; subst h; exact ⟨by decide, by decide, by decide⟩
  | .arr (x :: xs), l, hm => by
    simp only [serLines, List.mem_cons, List.mem_append, List.mem_singleton,
      List.not_mem_nil, or_false] at hm
    rcases hm with h | h | h
    · subst h; exact ⟨by decide, by decide, by decide⟩
    · exact serLinesL_clean n (lvl + 1) (x :: xs) l h
    · subst h; exact clean_close_line n lvl ']' (by decide) (by decide) (by decide)
  | .obj [], l, hm => by
    have h := List.mem_singleton.mp hm; subst h; exact ⟨by decide, by decide, by decide⟩
  | .obj (kv :: kvs), l, hm => by
    simp only [serLines, List.mem_cons, List.mem_append, List.mem_singleton,
      List.not_mem_nil, or_false] at hm
    rcases hm with h | h | h
    · subst h; exact ⟨by decide, by decide, by decide⟩
    · exact serLinesK_clean n (lvl + 1) (kv :: kvs) l h
    · subst h; exact clean_close_line n lvl '}' (by decide) (by decide) (by decide)

theorem serLinesL_clean (n lvl : Nat) :
    ∀ (xs : List Json), ∀ l ∈ serLinesL n lvl xs, lineClean l
  | [], _, hm => by cases hm
  | [x], l, hm => by
    obtain ⟨h, hh, hor⟩ := mem_mapHead hm
    have hc := serLines_clean n lvl x h hh
    rcases hor with h1 | h1
    · subst h1; exact hc
    · subst h1; exact clean_pad_prefix hc n lvl
  | x :: y :: ys, l, hm => by
    rcases List.mem_append.mp hm with h | h
    · obtain ⟨h1, hh1, hor1⟩ := mem_mapLast h
      obtain ⟨h2, hh2, hor2⟩ := mem_mapHead hh1
      have hc := serLines_clean n lvl x h2 hh2
      have hc1 : lineClean h1 := by
        rcases hor2 with he | he
        · subst he; exact hc
        · subst he; exact clean_pad_prefix hc n lvl
      rcases hor1 with he | he
      · subst he; exact hc1
      · subst he; exact clean_comma_suffix hc1
    · exact serLinesL_clean n lvl (y :: ys) l h

theorem serLinesK_clean (n lvl : Nat) :
    ∀ (kvs : List (List Char × Json)), ∀ l ∈ serLinesK n lvl kvs, lineClean l
  | [], _, hm => by cases hm
  | [(k, v)], l, hm => by
    obtain ⟨h, hh, hor⟩ := mem_mapHead hm
    have hc := serLines_clean n lvl v h hh
    rcases hor with h1 | h1
    · subst h1; exact hc
    · subst h1; exact clean_key_prefix hc n lvl k
  | (k, v) :: kv2 :: kvs, l, hm => by
    rcases List.mem_append.mp hm with h | h
    · obtain ⟨h1, hh1, hor1⟩ := mem_mapLast h
      obtain ⟨h2, hh2, hor2⟩ := mem_mapHead hh1
      have hc := serLines_clean n lvl v h2 hh2
      have hc1 : lineClean h1 := by
        rcases hor2 with he | he
        · subst he; exact hc
        · subst he; exact clean_key_prefix hc n lvl k
      rcases hor1 with he | he
      · subst he; exact hc1
      · subst he; exact clean_comma_suffix hc1
    · exact serLinesK_clean n lvl (kv2 :: kvs) l h

end

/-! ## The compact serialisation is one clean line -/

mutual

theorem serRawC_clean (lvl : Nat) :
    ∀ (j : Json), '\n' ∉ serRaw none lvl j ∧ '\r' ∉ serRaw none lvl j
  | .null => ⟨by simp [serRaw], by simp [serRaw]⟩
  | .bool true => ⟨by simp [serRaw], by simp [serRaw]⟩
  | .bool false => ⟨by simp [serRaw], by simp [serRaw]⟩
  | .num i => ⟨fun h => (intChars_clean i).1 h, fun h => (intChars_clean i).2.1 h⟩
  | .str s => ⟨fun h => (strLit_clean s).1 h, fun h => (strLit_clean s).2.1 h⟩
  | .arr [] => ⟨by simp [serRaw], by simp [serRaw]⟩
  | .arr (x :: xs) => by
    have h1 := serRawC_clean (lvl + 1) x
    have h2 := serListC_clean (lvl + 1) xs
    constructor <;> intro hm <;>
      (simp only [serRaw, openGlue, closeGlue, List.mem_cons, List.nil_append,
         List.mem_append, List.append_nil, List.mem_singleton, List.not_mem_nil,
         or_false] at hm)
    · rcases hm with h | (h | h) | h
      · exact absurd h (by decide)
      · exact h1.1 h
      · exact h2.1 h
      · exact absurd h (by decide)
    · rcases hm with h | (h | h) | h
      · exact absurd h (by decide)
      · exact h1.2 h
      · exact h2.2 h
      · exact absurd h (by decide)
  | .obj [] => ⟨by simp [serRaw], by simp [serRaw]⟩
  | .obj ((k, v) :: kvs) => by
    have h1 := serRawC_clean (lvl + 1) v
    have h2 := serKVsC_clean (lvl + 1) kvs
    constructor <;> intro hm <;>
      (simp only [serRaw, openGlue, closeGlue, colonGlue, List.mem_cons, List.nil_append,
         List.mem_append, List.append_nil, List.mem_singleton, List.not_mem_nil,
         or_false] at hm)
    · rcases hm with h | (((h | h) | h) | h) | h
      · exact absurd h (by decide)
      · exact (strLit_clean k).1 h
      · rcases h with h | h
        · exact absurd h (by decide)
        · exact absurd h (by decide)
      · exact h1.1 h
      · exact h2.1 h
      · exact absurd h (by decide)
    · rcases hm with h | (((h | h) | h) | h) | h
      · exact absurd h (by decide)
      · exact (strLit_clean k).2.1 h
      · rcases h with h | h
        · exact absurd h (by decide)
        · exact absurd h (by decide)
      · exact h1.2 h
      · exact h2.2 h
      · exact absurd h (by decide)

theorem serListC_clean (lvl : Nat) :
    ∀ (xs : List Json), '\n' ∉ serList none lvl xs ∧ '\r' ∉ serList none lvl xs
  | [] => ⟨by simp [serList], by simp [serList]⟩
  | x :: xs => by
    have h1 := serRawC_clean lvl x
    have h2 := serListC_clean lvl xs
    constructor <;> intro hm <;>
      (simp only [serList, sepGlue, List.mem_append, List.mem_cons,
         List.mem_singleton, List.not_mem_nil, or_false] at hm)
    · rcases hm with (h | h) | h
      · rcases h with h | h
        · exact absurd h (by decide)
        · exact absurd h (by decide)
      · exact h1.1 h
      · exact h2.1 h
    · rcases hm with (h | h) | h
      · rcases h with h | h
        · exact absurd h (by decide)
        · exact absurd h (by decide)
      · exact h1.2 h
      · exact h2.2 h

theorem serKVsC_clean (lvl : Nat) :
    ∀ (kvs : List (List Char × Json)),
      '\n' ∉ serKVs none lvl kvs ∧ '\r' ∉ serKVs none lvl kvs
  | [] => ⟨by simp [serKVs], by simp [serKVs]⟩
  | (k, v) :: kvs => by
    have h1 := serRawC_clean lvl v
    have h2 := serKVsC_clean lvl kvs
    constructor <;> intro hm <;>
      (simp only [serKVs, sepGlue, colonGlue, List.mem_append, List.mem_cons,
         List.mem_singleton, List.not_mem_nil, or_false] at hm)
    · rcases hm with (((h | h) | h) | h) | h
      · rcases h with h | h
        · exact absurd h (by decide)
        · exact absurd h (by decide)
      · exact (strLit_clean k).1 h
      · rcases h with h | h
        · exact absurd h (by decide)
        · exact absurd h (by decide)
      · exact h1.1 h
      · exact h2.1 h
    · rcases hm with (((h | h) | h) | h) | h
      · rcases h with h | h
        · exact absurd h (by decide)
        · exact absurd h (by decide)
      · exact (strLit_clean k).2.1 h
      · rcases h with h | h
        · exact absurd h (by decide)
        · exact absurd h (by decide)
      · exact h1.2 h
      · exact h2.2 h

end

/-- The compact serialisation is never the bare separator `--`. -/
theorem serRawC_ne_dashdash (lvl : Nat) (j : Json) :
    serRaw none lvl j ≠ ['-', '-'] := by
  cases j with
  | null => exact ne_dashdash_of_mem (List.mem_cons_self ..) (by decide)
  | bool b => cases b <;> exact ne_dashdash_of_mem (List.mem_cons_self ..) (by decide)
  | num i => exact (intChars_clean i).2.2
  | str s => exact (strLit_clean s).2.2
  | arr xs =>
    cases xs <;> exact ne_dashdash_of_mem (List.mem_cons_self ..) (by decide)
  | obj kvs =>
    rcases kvs with _ | ⟨⟨k, v⟩, kvs⟩ <;>
      exact ne_dashdash_of_mem (List.mem_cons_self ..) (by decide)

theorem pyLines_snoc_nl : ∀ {l : List Char}, '\n' ∉ l →
    pyLines (l ++ ['\n']) = [l ++ ['\n']]
  | [], _ => by simp [pyLines]
  | c :: cs, h => by
    have hc : c ≠ '\n' := fun he => h (he ▸ List.mem_cons_self ..)
    have ih := pyLines_snoc_nl (l := cs) (fun hm => h (List.mem_cons_of_mem _ hm))
    rw [List.cons_append, pyLines_cons_of_ne hc ih]

theorem pyLines_interNL :
    ∀ (ls : List (List Char)), ls ≠ [] → (∀ l ∈ ls, '\n' ∉ l) →
      pyLines (interNL ls ++ ['\n']) = ls.map (fun l => l ++ ['\n'])
  | [], h, _ => absurd rfl h
  | [l], _, hnl => by
    simp only [interNL, List.map]
    exact pyLines_snoc_nl (hnl l (List.mem_singleton.mpr rfl))
  | l :: l2 :: ls, _, hnl => by
    have ih := pyLines_interNL (l2 :: ls) (by simp)
      (fun x hx => hnl x (List.mem_cons_of_mem _ hx))
    rw [interNL_cons_cons]
    have hassoc : (l ++ '\n' :: interNL (l2 :: ls)) ++ ['\n']
        = (l ++ ['\n']) ++ (interNL (l2 :: ls) ++ ['\n']) := by simp
    rw [hassoc,
        pyLines_append_of_last_nl (l ++ ['\n']) _ (by simp [List.getLast?_concat]),
        pyLines_snoc_nl (hnl l (List.mem_cons_self ..)), ih]
    simp

theorem dropWhile_crlf_of_none : ∀ {xs : List Char},
    (∀ c ∈ xs, isCRLF c = false) → xs.dropWhile isCRLF = xs
  | [], _ => rfl
  | c :: cs, h => by
    simp [List.dropWhile_cons, h c (List.mem_cons_self ..)]

theorem rstripCRLF_snoc_nl {l : List Char} (hnl : '\n' ∉ l) (hcr : '\r' ∉ l) :
    rstripCRLF (l ++ ['\n']) = l := by
  have hmem : ∀ c ∈ l.reverse, isCRLF c = false := by
    intro c hc
    have hcl : c ∈ l := List.mem_reverse.mp hc
    have h1 : c ≠ '\r' := fun he => hcr (he ▸ hcl)
    have h2 : c ≠ '\n' := fun he => hnl (he ▸ hcl)
    simp [isCRLF, h1, h2]
  rw [rstripCRLF, List.reverse_append]
  simp only [List.reverse_cons, List.reverse_nil, List.nil_append, List.singleton_append,
    List.dropWhile_cons]
  rw [if_pos (by decide), dropWhile_crlf_of_none hmem, List.reverse_reverse]

/-- No line of a serialized canonical form (followed by the writer's
newline) strips to the `--` separator: the framer can never mistake record
content for a record boundary. -/
theorem dumps_lines_sep_free (st : Option Nat) (j : Json) :
    ∀ l ∈ pyLines (dumps st j ++ ['\n']), rstripCRLF l ≠ ['-', '-'] := by
  intro l hl
  cases st with
  | none =>
    rw [dumps, pyLines_snoc_nl (serRawC_clean 0 (canon j)).1] at hl
    have h := List.mem_singleton.mp hl
    subst h
    rw [rstripCRLF_snoc_nl (serRawC_clean 0 (canon j)).1 (serRawC_clean 0 (canon j)).2]
    exact serRawC_ne_dashdash 0 (canon j)
  | some n =>
    rw [dumps, serRaw_eq_interNL n 0 (canon j),
        pyLines_interNL (serLines n 0 (canon j)) (serLines_ne_nil n 0 (canon j))
          (fun x hx => (serLines_clean n 0 (canon j) x hx).1)] at hl
    simp only [List.mem_map] at hl
    obtain ⟨lo, hlo, hmap⟩ := hl
    subst hmap
    obtain ⟨h1, h2, h3⟩ := serLines_clean n 0 (canon j) lo hlo
    rw [rstripCRLF_snoc_nl h1 h2]
    exact h3

/-- The serialized canonical form has no newline before its own first
character... more precisely, every line of `dumps` is newline-terminated
after appending the separator blob; stated via `getLast?` for chunk
splitting. -/
theorem dumps_chunk_last (st : Option Nat) (j : Json) :
    (dumps st j ++ ['\n']).getLast? = some '\n' := by
  simp [List.getLast?_concat]

/-! ## Stores and the record reader (`DumpReader`)

A store written by the writer is a concatenation of chunks
`canonical form + "\n--\n"`.  The reader splits a file's content into
Python lines, frames them, and parses each block with `json.loads` of the
joined buffered lines, deduplicating parsed records by the hash of their
compact canonical dump. -/

/-- What one successful `write` appends: canonical form + separator blob. -/
def chunk (ind : Option Nat) (j : Json) : List Char := dumps ind j ++ sepBlob ['-', '-']

/-- The store holding the records `js` in order (what a dedup-free writer
produces). -/
def mkStore (ind : Option Nat) (js : List Json) : List Char :=
  (js.map (chunk ind)).flatten

/-- The framed block a record's chunk contributes: the lines of its
canonical form (the final one newline-terminated by the separator blob). -/
def blockOf (ind : Option Nat) (j : Json) : List (List Char) :=
  pyLines (dumps ind j ++ ['\n'])

/-- The dedup hash of a parsed record:
`hash(json.dumps(obj, sort_keys=True, ensure_ascii=False))`, with `hash`
modelled as the string itself. -/
def hashKey (j : Json) : List Char := dumps none j

inductive ReadErr where
  | parseError
  | stopIteration
deriving DecidableEq

structure RState where
  blocks : List (List (List Char))
  seen : Option (List (List Char))
  count : Nat
deriving DecidableEq

/-- The dedup loop of `DumpReader.__next__`: parse blocks, skipping those
whose hash is recorded, until a novel record (recorded, counted) or the
stream ends. -/
def readerNextLoop (s : List (List Char)) (cnt : Nat) :
    List (List (List Char)) → Except ReadErr (Json × RState)
  | [] => .error .stopIteration
  | b :: rest =>
    match loads b.flatten with
    | none => .error .parseError
    | some j =>
      if hashKey j ∈ s then readerNextLoop s cnt rest
      else .ok (j, ⟨rest, some (hashKey j :: s), cnt + 1⟩)

/-- `DumpReader.__next__`. -/
def readerNext (r : RState) : Except ReadErr (Json × RState) :=
  match r.seen with
  | none =>
    match r.blocks with
    | [] => .error .stopIteration
    | b :: rest =>
      match loads b.flatten with
      | none => .error .parseError
      | some j => .ok (j, ⟨rest, none, r.count + 1⟩)
  | some s => readerNextLoop s r.count r.blocks

/-- `DumpReader.read(-1)`: repeated `next` until the stream ends, a parse
error propagating.  Fuel-based; `readAll` supplies `blocks.length + 1`,
which always suffices since each `next` consumes at least one block. -/
def readAllAux : Nat → RState → Except ReadErr (List Json × RState)
  | 0, r => .ok ([], r)
  | fuel + 1, r =>
    match readerNext r with
    | .error .stopIteration => .ok ([], r)
    | .error .parseError => .error .parseError
    | .ok (j, r2) =>
      match readAllAux fuel r2 with
      | .ok (js, r3) => .ok (j :: js, r3)
      | .error e => .error e

def readAll (r : RState) : Except ReadErr (List Json × RState) :=
  readAllAux (r.blocks.length + 1) r

/-- `DumpReader.skip(-1)`: count the remaining framed blocks without
parsing. -/
def skipAll (r : RState) : Nat := r.blocks.length

/-- A fresh `DumpReader` over a file's content (as `DumpFile` builds one in
read mode, with the default `--` separator). -/
def mkReader (content : List Char) (unique : Bool) : RState :=
  ⟨(framer ['-', '-'] (pyLines content)).1, if unique then some [] else none, 0⟩

/-- `DumpFile(path, 'r', unique=u).read(-1)` on a file with the given
content: the record list (or a parse error). -/
def readStore (content : List Char) (unique : Bool) : Except ReadErr (List Json) :=
  (readAll (mkReader content unique)).map Prod.fst

/-- `get_count` restricted to a single file: open with dedup disabled and
`skip(-1)`. -/
def countStore (content : List Char) : Nat := skipAll (mkReader content false)

/-- Dedup fold: what a dedup-enabled reader yields from the records `js`
given the already-seen hash set `s` (each record parses back as its
canonical form). -/
def dedupF (s : List (List Char)) : List Json → List Json
  | [] => []
  | j :: js =>
    if dumps none j ∈ s then dedupF s js
    else canon j :: dedupF (dumps none j :: s) js

/-! ### Framing a canonical store -/

theorem chunk_eq (ind : Option Nat) (j : Json) :
    chunk ind j = (dumps ind j ++ ['\n']) ++ ['-', '-', '\n'] := by
  simp [chunk, sepBlob]

theorem pyLines_chunk (ind : Option Nat) (j : Json) :
    pyLines (chunk ind j) = blockOf ind j ++ [['-', '-', '\n']] := by
  rw [chunk_eq, pyLines_append_of_last_nl _ _ (dumps_chunk_last ind j)]
  rfl

theorem pyLines_mkStore (ind : Option Nat) :
    ∀ js : List Json,
      pyLines (mkStore ind js)
        = (js.map (fun j => blockOf ind j ++ [['-', '-', '\n']])).flatten
  | [] => rfl
  | j :: js => by
    have hlast : (chunk ind j).getLast? = some '\n' := by
      rw [chunk_eq]
      simp [List.getLast?_concat]
    have : mkStore ind (j :: js) = chunk ind j ++ mkStore ind js := by
      simp [mkStore]
    rw [this, pyLines_append_of_last_nl _ _ hlast, pyLines_chunk,
        pyLines_mkStore ind js]
    simp

theorem framer_mkStore (ind : Option Nat) :
    ∀ js : List Json,
      framer ['-', '-'] (pyLines (mkStore ind js)) = (js.map (blockOf ind), false)
  | [] => rfl
  | j :: js => by
    have hblock : ∀ l ∈ blockOf ind j, rstripCRLF l ≠ ['-', '-'] :=
      dumps_lines_sep_free ind j
    have hsep : rstripCRLF ['-', '-', '\n'] = ['-', '-'] := by decide
    have ih := framer_mkStore ind js
    rw [pyLines_mkStore] at ih ⊢
    rw [framer] at ih ⊢
    simp only [List.map_cons, List.flatten_cons, List.append_assoc,
      List.singleton_append]
    rw [framerAux_block ['-', '-'] [] (blockOf ind j) hblock _ hsep _]
    simp [ih]

/-! ### Reading a canonical store -/

/-- Parsing a framed block of a canonical store recovers the record's
canonical form. -/
theorem loads_blockOf (ind : Option Nat) (j : Json) :
    loads (blockOf ind j).flatten = some (canon j) := by
  rw [blockOf, join_pyLines]
  exact loads_dumps_append ind j ['\n'] (by decide)

/-- The dedup hash of a parsed record equals the compact dump of the
original record. -/
theorem hashKey_canon (j : Json) : hashKey (canon j) = dumps none j := by
  simp [hashKey, dumps, canon_canon]

/-- `readAllAux` only inspects the state through `readerNext`. -/
theorem readAllAux_eq_of_next (fuel : Nat) (r r' : RState)
    (h : readerNext r = readerNext r') :
    readAllAux (fuel + 1) r
      = match readerNext r' with
        | .error .stopIteration => .ok ([], r)
        | .error .parseError => .error .parseError
        | .ok (j, r2) =>
          match readAllAux fuel r2 with
          | .ok (js, r3) => .ok (j :: js, r3)
          | .error e => .error e := by
  rw [readAllAux, h]

/-- A dedup-enabled reader positioned on the canonical blocks of `js` with
seen set `s` reads out exactly the dedup fold of `js`. -/
theorem readAllAux_blocks (ind : Option Nat) :
    ∀ (js : List Json) (s : List (List Char)) (cnt fuel : Nat),
      js.length < fuel →
      ∃ rfin : RState,
        readAllAux fuel ⟨js.map (blockOf ind), some s, cnt⟩
          = .ok (dedupF s js, rfin)
  | [], s, cnt, fuel, hf => by
    obtain ⟨fuel', rfl⟩ : ∃ n, fuel = n + 1 :=
      ⟨fuel - 1, by omega⟩
    refine ⟨⟨[], some s, cnt⟩, ?_⟩
    rw [readAllAux]
    rfl
  | j :: js, s, cnt, fuel, hf => by
    obtain ⟨fuel', rfl⟩ : ∃ n, fuel = n + 1 :=
      ⟨fuel - 1, by omega⟩
    have hnext : readerNext ⟨(j :: js).map (blockOf ind), some s, cnt⟩
        = (if dumps none j ∈ s then readerNextLoop s cnt (js.map (blockOf ind))
           else .ok (canon j, ⟨js.map (blockOf ind), some (dumps none j :: s), cnt + 1⟩)) := by
      show readerNextLoop s cnt (blockOf ind j :: js.map (blockOf ind)) = _
      rw [readerNextLoop, loads_blockOf]
      show (if hashKey (canon j) ∈ s then readerNextLoop s cnt (js.map (blockOf ind))
          else .ok (canon j,
            ⟨js.map (blockOf ind), some (hashKey (canon j) :: s), cnt + 1⟩)) = _
      rw [hashKey_canon]
    by_cases hmem : dumps none j ∈ s
    · -- duplicate: skipped without consuming fuel
      have hnext' : readerNext ⟨(j :: js).map (blockOf ind), some s, cnt⟩
          = readerNext ⟨js.map (blockOf ind), some s, cnt⟩ := by
        rw [hnext, if_pos hmem, readerNext]
      obtain ⟨rfin, hrec⟩ := readAllAux_blocks ind js s cnt (fuel' + 1)
        (by simp only [List.length_cons] at hf; omega)
      rw [dedupF, if_pos hmem]
      rw [readAllAux] at hrec
      rw [readAllAux, hnext']
      cases h1 : readerNext ⟨js.map (blockOf ind), some s, cnt⟩ with
      | error e =>
        rw [h1] at hrec
        cases e with
        | stopIteration =>
          have hrec' : (Except.ok (([] : List Json),
                (⟨js.map (blockOf ind), some s, cnt⟩ : RState))
              : Except ReadErr (List Json × RState)) = .ok (dedupF s js, rfin) := hrec
          injection hrec' with hpair
          injection hpair with h2 h3
          refine ⟨⟨(j :: js).map (blockOf ind), some s, cnt⟩, ?_⟩
          show (Except.ok (([] : List Json),
                (⟨(j :: js).map (blockOf ind), some s, cnt⟩ : RState))
              : Except ReadErr (List Json × RState)) = _
          rw [← h2]
        | parseError =>
          exact Except.noConfusion
            (show (Except.error ReadErr.parseError : Except ReadErr (List Json × RState))
              = .ok (dedupF s js, rfin) from hrec)
      | ok v =>
        obtain ⟨j2, r2⟩ := v
        rw [h1] at hrec
        exact ⟨rfin, hrec⟩
    · -- novel record: yielded, recorded, counted
      obtain ⟨rfin, hrec⟩ := readAllAux_blocks ind js (dumps none j :: s) (cnt + 1) fuel'
        (by simp only [List.length_cons] at hf; omega)
      refine ⟨rfin, ?_⟩
      rw [readAllAux, hnext, if_neg hmem]
      simp only [hrec]
      rw [dedupF, if_neg hmem]

/-- A dedup-free reader positioned on the canonical blocks of `js` reads
out every record's canonical form, in order. -/
theorem readAllAux_nodedup (ind : Option Nat) :
    ∀ (js : List Json) (cnt fuel : Nat),
      js.length < fuel →
      ∃ rfin : RState,
        readAllAux fuel ⟨js.map (blockOf ind), none, cnt⟩ = .ok (js.map canon, rfin)
  | [], cnt, fuel, hf => by
    obtain ⟨fuel', rfl⟩ : ∃ n, fuel = n + 1 := ⟨fuel - 1, by omega⟩
    exact ⟨⟨[], none, cnt⟩, rfl⟩
  | j :: js, cnt, fuel, hf => by
    obtain ⟨fuel', rfl⟩ : ∃ n, fuel = n + 1 := ⟨fuel - 1, by omega⟩
    have hnext : readerNext ⟨(j :: js).map (blockOf ind), none, cnt⟩
        = .ok (canon j, ⟨js.map (blockOf ind), none, cnt + 1⟩) := by
      show (match loads (blockOf ind j).flatten with
          | none => (Except.error ReadErr.parseError : Except ReadErr (Json × RState))
          | some j2 => .ok (j2, ⟨js.map (blockOf ind), none, cnt + 1⟩)) = _
      rw [loads_blockOf]
    obtain ⟨rfin, hrec⟩ := readAllAux_nodedup ind js (cnt + 1) fuel'
      (by simp only [List.length_cons] at hf; omega)
    refine ⟨rfin, ?_⟩
    rw [readAllAux, hnext]
    simp only [hrec, List.map_cons]

/-- Reading back a canonical store with dedup enabled gives exactly the
dedup fold. -/
theorem readStore_mkStore (ind : Option Nat) (js : List Json) :
    readStore (mkStore ind js) true = .ok (dedupF [] js) := by
  have hb : (framer ['-', '-'] (pyLines (mkStore ind js))).1 = js.map (blockOf ind) := by
    rw [framer_mkStore]
  have hst : mkReader (mkStore ind js) true = ⟨js.map (blockOf ind), some [], 0⟩ := by
    rw [mkReader, hb]
    rfl
  obtain ⟨rfin, h⟩ := readAllAux_blocks ind js [] 0 (js.length + 1) (by omega)
  rw [readStore, hst, readAll]
  simp only [List.length_map]
  rw [h]
  rfl

/-- Reading back a canonical store with dedup disabled yields every
record's canonical form, in order. -/
theorem readStore_mkStore_all (ind : Option Nat) (js : List Json) :
    readStore (mkStore ind js) false = .ok (js.map canon) := by
  have hb : (framer ['-', '-'] (pyLines (mkStore ind js))).1 = js.map (blockOf ind) := by
    rw [framer_mkStore]
  have hst : mkReader (mkStore ind js) false = ⟨js.map (blockOf ind), none, 0⟩ := by
    rw [mkReader, hb]
    rfl
  obtain ⟨rfin, h⟩ := readAllAux_nodedup ind js 0 (js.length + 1) (by omega)
  rw [readStore, hst, readAll]
  simp only [List.length_map]
  rw [h]
  rfl

/-- The parse-free block count of a canonical store is the number of
records written into it. -/
theorem countStore_mkStore (ind : Option Nat) (js : List Json) :
    countStore (mkStore ind js) = js.length := by
  rw [countStore, mkReader]
  show (framer ['-', '-'] (pyLines (mkStore ind js))).1.length = _
  rw [framer_mkStore]
  exact List.length_map ..

/-! ### The writer's store -/

/-- What a dedup-enabled writer keeps from `js` given the already-written
formatted strings `s`: first occurrences by formatted-string hash. -/
def wFilter (ind : Option Nat) (s : List (List Char)) : List Json → List Json
  | [] => []
  | j :: js =>
    if dumps ind j ∈ s then wFilter ind s js
    else j :: wFilter ind (dumps ind j :: s) js

theorem wWriteMany_dedup (ind : Option Nat) :
    ∀ (js : List Json) (s : List (List Char)) (cnt : Nat),
      ∃ s' : List (List Char),
        wWriteMany ⟨ind, ['-', '-'], some s, cnt⟩ js
          = (⟨ind, ['-', '-'], some s', cnt + (wFilter ind s js).length⟩,
             mkStore ind (wFilter ind s js), (wFilter ind s js).length)
  | [], s, cnt => ⟨s, by simp [wWriteMany, wFilter, mkStore]⟩
  | j :: js, s, cnt => by
    by_cases hmem : dumps ind j ∈ s
    · obtain ⟨s', h⟩ := wWriteMany_dedup ind js s cnt
      refine ⟨s', ?_⟩
      rw [wWriteMany, wFilter, if_pos hmem]
      simp [wWrite, if_pos hmem, h]
    · obtain ⟨s', h⟩ := wWriteMany_dedup ind js (dumps ind j :: s) (cnt + 1)
      refine ⟨s', ?_⟩
      rw [wWriteMany, wFilter, if_neg hmem]
      simp only [wWrite, if_neg hmem, h, Prod.mk.injEq, WState.mk.injEq,
        List.length_cons, mkStore, List.map_cons, List.flatten_cons, chunk,
        List.append_assoc, true_and, and_true, if_pos]
      omega

theorem wWriteMany_nodedup (ind : Option Nat) :
    ∀ (js : List Json) (cnt : Nat),
      wWriteMany ⟨ind, ['-', '-'], none, cnt⟩ js
        = (⟨ind, ['-', '-'], none, cnt + js.length⟩, mkStore ind js, js.length)
  | [], cnt => by simp [wWriteMany, mkStore]
  | j :: js, cnt => by
    rw [wWriteMany]
    simp only [wWrite, wWriteMany_nodedup ind js (cnt + 1), Prod.mk.injEq,
      WState.mk.injEq, List.length_cons, mkStore, List.map_cons,
      List.flatten_cons, chunk, List.append_assoc, true_and, and_true]
    refine ⟨by omega, ?_⟩
    simp [Nat.add_comm]

/-- A fresh dedup-enabled writer writes exactly the first-occurrence filter
of its input as a canonical store. -/
theorem writerOutput_dedup (ind : Option Nat) (js : List Json) :
    writerOutput true ind js = mkStore ind (wFilter ind [] js) := by
  obtain ⟨s', h⟩ := wWriteMany_dedup ind js [] 0
  rw [writerOutput]
  show (wWriteMany ⟨ind, ['-', '-'], some [], 0⟩ js).2.1 = _
  rw [h]

/-- A fresh dedup-free writer writes its input verbatim as a canonical
store. -/
theorem writerOutput_nodedup (ind : Option Nat) (js : List Json) :
    writerOutput false ind js = mkStore ind js := by
  rw [writerOutput]
  show (wWriteMany ⟨ind, ['-', '-'], none, 0⟩ js).2.1 = _
  rw [wWriteMany_nodedup]

/-- C3: writing three records with pairwise-distinct canonical forms to a
fresh store and reading the store back with a fresh reader's `read(-1)`
returns exactly those three records (each as its canonical form, which
denotes the same JSON value), in the original order. -/
theorem C3_round_trip (ind : Option Nat) (r1 r2 r3 : Json)
    (h12 : canon r1 ≠ canon r2) (h13 : canon r1 ≠ canon r3)
    (h23 : canon r2 ≠ canon r3) :
    readStore (writerOutput true ind [r1, r2, r3]) true
      = .ok [canon r1, canon r2, canon r3] := by
  have d12 : dumps ind r2 ≠ dumps ind r1 :=
    fun h => h12 ((dumps_eq_iff ind r2 r1).1 h).symm
  have d13 : dumps ind r3 ≠ dumps ind r1 :=
    fun h => h13 ((dumps_eq_iff ind r3 r1).1 h).symm
  have d23 : dumps ind r3 ≠ dumps ind r2 :=
    fun h => h23 ((dumps_eq_iff ind r3 r2).1 h).symm
  have e12 : dumps none r2 ≠ dumps none r1 :=
    fun h => h12 ((dumps_eq_iff none r2 r1).1 h).symm
  have e13 : dumps none r3 ≠ dumps none r1 :=
    fun h => h13 ((dumps_eq_iff none r3 r1).1 h).symm
  have e23 : dumps none r3 ≠ dumps none r2 :=
    fun h => h23 ((dumps_eq_iff none r3 r2).1 h).symm
  have hw : wFilter ind [] [r1, r2, r3] = [r1, r2, r3] := by
    simp [wFilter, d12, d13, d23]
  have hd : dedupF [] [r1, r2, r3] = [canon r1, canon r2, canon r3] := by
    simp [dedupF, e12, e13, e23]
  rw [writerOutput_dedup, hw, readStore_mkStore, hd]

theorem C3_witness :
    readStore (writerOutput true (some 4) [Json.null, Json.bool true, Json.num 0]) true
      = .ok [canon Json.null, canon (Json.bool true), canon (Json.num 0)] :=
  C3_round_trip (some 4) Json.null (Json.bool true) (Json.num 0)
    (by decide) (by decide) (by decide)

/-- C5 (amended): the parse-free `count()` traversal over a store with `N`
records equals the length of the list returned by `read(-1)` on a fresh
session over that store only when that session, like `get_count`, disables
deduplication; a fresh default session deduplicates, so a store holding
duplicate records gives a shorter `read(-1)` (see the counterexample). -/
theorem C5_count_vs_read (ind : Option Nat) (js : List Json) :
    ∃ out : List Json,
      readStore (mkStore ind js) false = .ok out
        ∧ countStore (mkStore ind js) = out.length := by
  refine ⟨js.map canon, readStore_mkStore_all ind js, ?_⟩
  rw [countStore_mkStore]
  exact (List.length_map ..).symm

/-- C5 counterexample: a store written (without dedup) from two copies of
`null` has `count() = 2`, but a fresh default (deduplicating) session's
`read(-1)` returns a single record. -/
theorem C5_counterexample :
    countStore (mkStore (some 4) [Json.null, Json.null]) = 2
      ∧ readStore (mkStore (some 4) [Json.null, Json.null]) true = .ok [Json.null] := by
  constructor
  · rfl
  · rfl

/-- C6: two records with equal canonical data (e.g. the same object with
keys in different orders) have identical canonical forms, so with dedup
enabled the writer rejects the second (the store holds only the first) and
the reader yields only the first. -/
theorem C6_key_order_invariance (ind : Option Nat) (r1 r2 : Json)
    (h : canon r1 = canon r2) :
    dumps ind r1 = dumps ind r2
      ∧ writerOutput true ind [r1, r2] = mkStore ind [r1]
      ∧ readStore (mkStore ind [r1, r2]) true = .ok [canon r1] := by
  have hd : dumps ind r2 = dumps ind r1 := (dumps_eq_iff ind r2 r1).2 h.symm
  have h0 : dumps none r2 = dumps none r1 := (dumps_eq_iff none r2 r1).2 h.symm
  refine ⟨hd.symm, ?_, ?_⟩
  · rw [writerOutput_dedup]
    have hw : wFilter ind [] [r1, r2] = [r1] := by simp [wFilter, hd]
    rw [hw]
  · rw [readStore_mkStore]
    have hdd : dedupF [] [r1, r2] = [canon r1] := by simp [dedupF, h0]
    rw [hdd]

/-! ## `load`: multi-file aggregation with an outer dedup set -/

/-- The outer dedup filter of `load`: keep each record whose compact
canonical dump's hash is not yet in the seen set, recording it; returns
the kept records and the final seen set. -/
def outerDedup (s : List (List Char)) : List Json → List Json × List (List Char)
  | [] => ([], s)
  | j :: js =>
    if hashKey j ∈ s then outerDedup s js
    else
      let r := outerDedup (hashKey j :: s) js
      (j :: r.1, r.2)

/-- `load` over resolved file contents: each file is read through a session
with the per-file dedup disabled (`unique=False`), and with `unique` the
records pass through the single outer dedup set threaded across all
files. -/
def loadAux (seen : Option (List (List Char))) :
    List (List Char) → Except ReadErr (List Json)
  | [] => .ok []
  | c :: cs =>
    match readStore c false with
    | .error e => .error e
    | .ok js =>
      match seen with
      | none =>
        match loadAux none cs with
        | .ok rest => .ok (js ++ rest)
        | .error e => .error e
      | some s =>
        let r := outerDedup s js
        match loadAux (some r.2) cs with
        | .ok rest => .ok (r.1 ++ rest)
        | .error e => .error e

def loadModel (contents : List (List Char)) (unique : Bool) :
    Except ReadErr (List Json) :=
  loadAux (if unique then some [] else none) contents

theorem outerDedup_append (b : List Json) :
    ∀ (a : List Json) (s : List (List Char)),
      outerDedup s (a ++ b)
        = ((outerDedup s a).1 ++ (outerDedup (outerDedup s a).2 b).1,
           (outerDedup (outerDedup s a).2 b).2)
  | [], s => by simp [outerDedup]
  | j :: a, s => by
    by_cases hmem : hashKey j ∈ s
    · rw [List.cons_append, outerDedup, if_pos hmem, outerDedup, if_pos hmem]
      exact outerDedup_append b a s
    · rw [List.cons_append, outerDedup, if_neg hmem, outerDedup, if_neg hmem]
      rw [outerDedup_append b a (hashKey j :: s)]
      rfl

/-- Keys already yielded never repeat: the output of the outer dedup
filter has pairwise-distinct hashes, none of them in the starting seen
set. -/
theorem outerDedup_nodup :
    ∀ (js : List Json) (s : List (List Char)),
      ((outerDedup s js).1.map hashKey).Nodup
        ∧ ∀ k ∈ (outerDedup s js).1.map hashKey, k ∉ s
  | [], s => by simp [outerDedup]
  | j :: js, s => by
    by_cases hmem : hashKey j ∈ s
    · rw [outerDedup, if_pos hmem]
      exact outerDedup_nodup js s
    · rw [outerDedup, if_neg hmem]
      obtain ⟨h1, h2⟩ := outerDedup_nodup js (hashKey j :: s)
      constructor
      · simp only [List.map_cons, List.nodup_cons]
        exact ⟨fun hk => (h2 _ hk) (List.mem_cons_self ..), h1⟩
      · intro k hk
        simp only [List.map_cons, List.mem_cons] at hk
        rcases hk with rfl | hk
        · exact hmem
        · exact fun hks => (h2 _ hk) (List.mem_cons_of_mem _ hks)

theorem loadAux_stores :
    ∀ (files : List (Option Nat × List Json)) (s : List (List Char)),
      loadAux (some s) (files.map fun f => mkStore f.1 f.2)
        = .ok (outerDedup s ((files.map fun f => f.2.map canon).flatten)).1
  | [], s => by simp [loadAux, outerDedup]
  | f :: files, s => by
    rw [List.map_cons, loadAux, readStore_mkStore_all]
    simp only [loadAux_stores files, List.map_cons, List.flatten_cons,
      outerDedup_append]

/-- C8: `load` with `unique` enabled over canonical stores (each file read
with its per-session dedup disabled) yields exactly the first-occurrence
filter — under the single outer dedup set — of all records in
file-then-record order; every canonical form is yielded exactly once (the
yielded hashes are pairwise distinct). -/
theorem C8_load_outer_dedup (files : List (Option Nat × List Json)) :
    loadModel (files.map fun f => mkStore f.1 f.2) true
      = .ok (outerDedup [] ((files.map fun f => f.2.map canon).flatten)).1
    ∧ ((outerDedup [] ((files.map fun f => f.2.map canon).flatten)).1.map hashKey).Nodup := by
  refine ⟨?_, (outerDedup_nodup _ _).1⟩
  rw [loadModel]
  exact loadAux_stores files []

theorem C6_witness :
    dumps (some 4) (Json.obj [(['a'], Json.num 1), (['b'], Json.num 2)])
        = dumps (some 4) (Json.obj [(['b'], Json.num 2), (['a'], Json.num 1)])
      ∧ writerOutput true (some 4)
          [Json.obj [(['a'], Json.num 1), (['b'], Json.num 2)],
           Json.obj [(['b'], Json.num 2), (['a'], Json.num 1)]]
        = mkStore (some 4) [Json.obj [(['a'], Json.num 1), (['b'], Json.num 2)]]
      ∧ readStore (mkStore (some 4)
          [Json.obj [(['a'], Json.num 1), (['b'], Json.num 2)],
           Json.obj [(['b'], Json.num 2), (['a'], Json.num 1)]]) true
        = .ok [canon (Json.obj [(['a'], Json.num 1), (['b'], Json.num 2)])] :=
  C6_key_order_invariance (some 4)
    (Json.obj [(['a'], Json.num 1), (['b'], Json.num 2)])
    (Json.obj [(['b'], Json.num 2), (['a'], Json.num 1)])
    (by decide)

/-! ## File sessions (`DumpFile` open / write / close)

The filesystem is a map from paths to regular-file contents.  `DumpFile`'s
write-side plumbing (`__init__` for modes `w`/`x`/`a`, `close`) is
modelled at the level of path operations: directory handling and the gzip
wrapper are elided (a gzip session performs the same path-level unlinks,
creations and rename on the same paths).  The temporary path is the target
path with `.partial` appended (`path.with_suffix(path.suffix +
'.partial')`). -/

abbrev Path := List Char

abbrev FS := Path → Option (List Char)

def emptyFS : FS := fun _ => none

def setFile (fs : FS) (p : Path) (c : List Char) : FS :=
  fun q => if q = p then some c else fs q

def delFile (fs : FS) (p : Path) : FS :=
  fun q => if q = p then none else fs q

def tempPath (p : Path) : Path := p ++ ['.', 'p', 'a', 'r', 't', 'i', 'a', 'l']

inductive Mode where
  | w
  | x
  | a
deriving DecidableEq

inductive OpenErr where
  | fileExists
  | notFound
deriving DecidableEq

structure WSession where
  path : Path
  useTemp : Bool
deriving DecidableEq

/-- The file a session's writes go to: the temporary path when one is in
use, the target itself otherwise. -/
def target (s : WSession) : Path :=
  if s.useTemp then tempPath s.path else s.path

/-- `DumpFile.__init__` for the write-side modes.
* Append: the target must already exist (the gzip sniff opens it for
  reading); `write_temp` is ignored with a warning, and records are
  appended to the target in place.
* Exclusive-create: if a file exists at the target the open raises
  `FileExistsError` — this is the only existence check in the lifecycle.
* Write/exclusive-create: with `write_temp`, a stale file at the temporary
  path is unlinked, then the write target (temporary path if enabled,
  target path otherwise) is created empty. -/
def openW (fs : FS) (mode : Mode) (p : Path) (writeTemp : Bool) :
    Except OpenErr (FS × WSession) :=
  match mode with
  | .a =>
    match fs p with
    | none => .error .notFound
    | some _ => .ok (fs, ⟨p, false⟩)
  | .x =>
    if (fs p).isSome then .error .fileExists
    else
      let s : WSession := ⟨p, writeTemp⟩
      let fs1 := if writeTemp then delFile fs (tempPath p) else fs
      .ok (setFile fs1 (target s) [], s)
  | .w =>
    let s : WSession := ⟨p, writeTemp⟩
    let fs1 := if writeTemp then delFile fs (tempPath p) else fs
    .ok (setFile fs1 (target s) [], s)

/-- One chunk appended to the session's write target. -/
def sWrite (fs : FS) (s : WSession) (out : List Char) : FS :=
  setFile fs (target s) ((fs (target s)).getD [] ++ out)

def sessionRun (fs : FS) (s : WSession) (outs : List (List Char)) : FS :=
  outs.foldl (fun f o => sWrite f s o) fs

/-- `DumpFile.close`: with a temporary path in use and a file present
there, unlink the target (if it exists — the effect is the same either
way) and rename the temporary file onto it; there is no existence check
and no failure path.  Without a temporary path, closing only releases the
handle. -/
def closeW (fs : FS) (s : WSession) : FS :=
  if s.useTemp then
    match fs (tempPath s.path) with
    | some content =>
      let fs1 := delFile fs s.path
      let fs2 := delFile fs1 (tempPath s.path)
      setFile fs2 s.path content
    | none => fs
  else fs

theorem tempPath_ne (p : Path) : tempPath p ≠ p := by
  intro h
  have := congrArg List.length h
  simp [tempPath] at this

theorem setFile_same (fs : FS) (p : Path) (c : List Char) :
    setFile fs p c p = some c := by
  simp [setFile]

theorem setFile_other (fs : FS) {p q : Path} (h : q ≠ p) (c : List Char) :
    setFile fs p c q = fs q := by
  simp [setFile, h]

theorem delFile_other (fs : FS) {p q : Path} (h : q ≠ p) :
    delFile fs p q = fs q := by
  simp [delFile, h]

/-- Writes accumulate on the session target. -/
theorem sessionRun_target (s : WSession) :
    ∀ (outs : List (List Char)) (fs : FS) (c : List Char),
      fs (target s) = some c →
      sessionRun fs s outs (target s) = some (c ++ outs.flatten)
  | [], fs, c, h => by simpa [sessionRun] using h
  | o :: outs, fs, c, h => by
    have h1 : sWrite fs s o (target s) = some (c ++ o) := by
      rw [sWrite, setFile_same, h]
      rfl
    have := sessionRun_target s outs (sWrite fs s o) (c ++ o) h1
    simpa [sessionRun, List.append_assoc] using this

/-- Writes touch nothing but the session target. -/
theorem sessionRun_frame (s : WSession) {q : Path} (hq : q ≠ target s) :
    ∀ (outs : List (List Char)) (fs : FS),
      sessionRun fs s outs q = fs q
  | [], fs => rfl
  | o :: outs, fs => by
    have := sessionRun_frame s hq outs (sWrite fs s o)
    rw [sessionRun] at this ⊢
    simp only [List.foldl_cons] at this ⊢
    rw [this, sWrite, setFile_other fs hq]

theorem delFile_same (fs : FS) (p : Path) : delFile fs p p = none := by
  simp [delFile]

/-- `close` with a file at the temporary path: unlink target, rename. -/
theorem closeW_temp (fs : FS) (p : Path) (c : List Char)
    (h : fs (tempPath p) = some c) :
    closeW fs ⟨p, true⟩
      = setFile (delFile (delFile fs p) (tempPath p)) p c := by
  simp [closeW, h]

/-- C10: opening a write-mode or exclusive-create session with the
temporary file enabled deletes the file already sitting at the reserved
temporary path (target + `.partial`) during open — before any record is
written and before any commit — replacing it with the session's fresh
empty temporary file and touching no other path (in particular the target
itself keeps its prior state). -/
theorem C10_temp_deleted_at_open (fs : FS) (mode : Mode) (p : Path)
    (hm : mode ≠ Mode.a) (hx : mode = Mode.x → fs p = none)
    (old : List Char) (_hold : fs (tempPath p) = some old) :
    ∃ fs' : FS, ∃ s : WSession,
      openW fs mode p true = .ok (fs', s)
        ∧ fs' (tempPath p) = some []
        ∧ ∀ q, q ≠ tempPath p → fs' q = fs q := by
  have hopen : openW fs mode p true
      = .ok (setFile (delFile fs (tempPath p)) (tempPath p) [], ⟨p, true⟩) := by
    cases mode with
    | a => exact absurd rfl hm
    | w => rfl
    | x => simp [openW, target, hx rfl]
  exact ⟨_, _, hopen, setFile_same _ _ _,
    fun q hq => (setFile_other _ hq _).trans (delFile_other _ hq)⟩

theorem C10_witness :
    ∃ fs' : FS, ∃ s : WSession,
      openW (setFile emptyFS (tempPath ['a']) ['z']) Mode.w ['a'] true = .ok (fs', s)
        ∧ fs' (tempPath ['a']) = some []
        ∧ ∀ q, q ≠ tempPath ['a'] →
            fs' q = setFile emptyFS (tempPath ['a']) ['z'] q :=
  C10_temp_deleted_at_open (setFile emptyFS (tempPath ['a']) ['z']) Mode.w ['a']
    (by decide) (fun h => Mode.noConfusion h) ['z'] rfl

/-- C2 (amended): a write-mode or exclusive-create session writing through
a temporary file is atomic — at every point during the session the target
path still holds its original state, at close the target holds exactly the
fully-written session output, and no file remains at the reserved
temporary path.  (The unrestricted claim fails: a write-mode session with
the temporary file disabled truncates the target at open, and an
append-mode session grows the target in place — see the counterexample.) -/
theorem C2_atomic_temp_sessions (fs : FS) (mode : Mode) (p : Path)
    (hm : mode ≠ Mode.a) (hx : mode = Mode.x → fs p = none)
    (outs : List (List Char)) :
    ∃ fs1 : FS, ∃ s : WSession,
      openW fs mode p true = .ok (fs1, s)
        ∧ (∀ pre suf : List (List Char), outs = pre ++ suf →
            sessionRun fs1 s pre p = fs p)
        ∧ closeW (sessionRun fs1 s outs) s p = some outs.flatten
        ∧ closeW (sessionRun fs1 s outs) s (tempPath p) = none := by
  have hp : p ≠ tempPath p := (tempPath_ne p).symm
  have hopen : openW fs mode p true
      = .ok (setFile (delFile fs (tempPath p)) (tempPath p) [], ⟨p, true⟩) := by
    cases mode with
    | a => exact absurd rfl hm
    | w => rfl
    | x => simp [openW, target, hx rfl]
  have h0 : (setFile (delFile fs (tempPath p)) (tempPath p) []) (tempPath p) = some [] :=
    setFile_same _ _ _
  have htemp : sessionRun (setFile (delFile fs (tempPath p)) (tempPath p) [])
      ⟨p, true⟩ outs (tempPath p) = some ([] ++ outs.flatten) :=
    sessionRun_target ⟨p, true⟩ outs _ [] h0
  refine ⟨_, _, hopen, ?_, ?_, ?_⟩
  · intro pre suf hps
    rw [sessionRun_frame ⟨p, true⟩ hp pre]
    rw [setFile_other _ hp, delFile_other _ hp]
  · rw [closeW_temp _ _ _ htemp, setFile_same, List.nil_append]
  · rw [closeW_temp _ _ _ htemp, setFile_other _ (tempPath_ne p),
      delFile_same]

theorem C2_witness :
    ∃ fs1 : FS, ∃ s : WSession,
      openW (setFile emptyFS ['a'] ['o']) Mode.w ['a'] true = .ok (fs1, s)
        ∧ (∀ pre suf : List (List Char), [['x'], ['y']] = pre ++ suf →
            sessionRun fs1 s pre ['a'] = setFile emptyFS ['a'] ['o'] ['a'])
        ∧ closeW (sessionRun fs1 s [['x'], ['y']]) s ['a']
            = some [['x'], ['y']].flatten
        ∧ closeW (sessionRun fs1 s [['x'], ['y']]) s (tempPath ['a']) = none :=
  C2_atomic_temp_sessions (setFile emptyFS ['a'] ['o']) Mode.w ['a']
    (by decide) (fun h => Mode.noConfusion h) [['x'], ['y']]

/-- C2 counterexample: with the temporary file disabled, a write-mode
session truncates the target at open — immediately after open (before any
record is written) the target path holds an empty file, which is neither
the original content nor fully-written new content. -/
theorem C2_counterexample :
    ∃ fs1 : FS, ∃ s : WSession,
      openW (setFile emptyFS ['a'] ['o']) Mode.w ['a'] false = .ok (fs1, s)
        ∧ fs1 ['a'] = some []
        ∧ setFile emptyFS ['a'] ['o'] ['a'] = some ['o'] :=
  ⟨_, _, rfl, rfl, rfl⟩

/-- C1 (amended): a temporary-file exclusive-create session races by
last-writer-wins, not by failing.  The target-existence check happens at
open only (it raises `FileExistsError` there whenever a file is present);
`close` performs no check and cannot fail: it unconditionally unlinks
whatever is at the target — including content another writer created
during the session — and renames the session's fully-written temporary
file onto it, leaving no temporary file behind. -/
theorem C1_exclusive_race (fs : FS) (p : Path) (hp : fs p = none)
    (outs : List (List Char)) (winner : List Char) :
    ∃ fs1 : FS, ∃ s : WSession,
      openW fs Mode.x p true = .ok (fs1, s)
        ∧ closeW (setFile (sessionRun fs1 s outs) p winner) s p
            = some outs.flatten
        ∧ closeW (setFile (sessionRun fs1 s outs) p winner) s (tempPath p)
            = none
        ∧ ∀ (fs' : FS) (c : List Char), fs' p = some c →
            openW fs' Mode.x p true = .error .fileExists := by
  have hopen : openW fs Mode.x p true
      = .ok (setFile (delFile fs (tempPath p)) (tempPath p) [], ⟨p, true⟩) := by
    simp [openW, target, hp]
  have h0 : (setFile (delFile fs (tempPath p)) (tempPath p) []) (tempPath p) = some [] :=
    setFile_same _ _ _
  have htemp : sessionRun (setFile (delFile fs (tempPath p)) (tempPath p) [])
      ⟨p, true⟩ outs (tempPath p) = some ([] ++ outs.flatten) :=
    sessionRun_target ⟨p, true⟩ outs _ [] h0
  have hmid : (setFile (sessionRun (setFile (delFile fs (tempPath p)) (tempPath p) [])
      ⟨p, true⟩ outs) p winner) (tempPath p) = some ([] ++ outs.flatten) := by
    rw [setFile_other _ (tempPath_ne p)]
    exact htemp
  refine ⟨_, _, hopen, ?_, ?_, ?_⟩
  · rw [closeW_temp _ _ _ hmid, setFile_same, List.nil_append]
  · rw [closeW_temp _ _ _ hmid, setFile_other _ (tempPath_ne p),
      delFile_same]
  · intro fs' c hc
    simp [openW, hc]

theorem C1_witness :
    ∃ fs1 : FS, ∃ s : WSession,
      openW emptyFS Mode.x ['a'] true = .ok (fs1, s)
        ∧ closeW (setFile (sessionRun fs1 s [['x']]) ['a'] ['w']) s ['a']
            = some [['x']].flatten
        ∧ closeW (setFile (sessionRun fs1 s [['x']]) ['a'] ['w']) s (tempPath ['a'])
            = none
        ∧ ∀ (fs' : FS) (c : List Char), fs' ['a'] = some c →
            openW fs' Mode.x ['a'] true = .error .fileExists :=
  C1_exclusive_race emptyFS ['a'] rfl [['x']] ['w']

/-- C1 counterexample: the session's close succeeds even though another
writer created the target during the session, and the race winner's
content `['w']` does not remain intact — it is replaced by the session's
output. -/
theorem C1_counterexample :
    ∃ fs1 : FS, ∃ s : WSession,
      openW emptyFS Mode.x ['a'] true = .ok (fs1, s)
        ∧ closeW (setFile (sWrite fs1 s ['x']) ['a'] ['w']) s ['a'] = some ['x'] :=
  ⟨_, _, rfl, by decide⟩

/-! ## `dump`: broadcasting to several targets -/

/-- One record handed to every open target writer. -/
def dumpStep (ws : List WState) (j : Json) : List WState :=
  ws.map fun w => (wWrite w j).1

def dumpRun (ws : List WState) (js : List Json) : List WState :=
  js.foldl dumpStep ws

def wRun (w : WState) (js : List Json) : WState :=
  js.foldl (fun w j => (wWrite w j).1) w

/-- `dump`'s writing phase and closing assertion over `n` target files:
one fresh writer per target (each with its own dedup set), every record
written to every target, then each target's `get_count` (its writer's
counter) is collected and the `assert n_written == f.get_count()` check
requires them all to equal the first. -/
def dumpModel (unique : Bool) (ind : Option Nat) (n : Nat) (js : List Json) :
    Option (List Nat) :=
  let ws := dumpRun (List.replicate n (mkWriter unique ind)) js
  let counts := ws.map WState.count
  match counts with
  | [] => some []
  | c :: cs => if cs.all fun c2 => c2 = c then some counts else none

theorem dumpRun_replicate :
    ∀ (js : List Json) (n : Nat) (w : WState),
      dumpRun (List.replicate n w) js = List.replicate n (wRun w js)
  | [], n, w => rfl
  | j :: js, n, w => by
    rw [dumpRun, List.foldl_cons]
    have hstep : dumpStep (List.replicate n w) j = List.replicate n ((wWrite w j).1) := by
      rw [dumpStep, List.map_replicate]
    rw [hstep]
    exact dumpRun_replicate js n ((wWrite w j).1)

theorem wWriteMany_fst :
    ∀ (js : List Json) (w : WState), (wWriteMany w js).1 = wRun w js
  | [], w => rfl
  | j :: js, w => by
    rw [wWriteMany]
    exact wWriteMany_fst js ((wWrite w j).1)

/-- C9: writing any record sequence through `dump` to two or more targets
leaves every target writer with the identical final write count (each
target independently applies its own dedup set to the same records in the
same order), so the closing equal-counts assertion always passes, returning
that common count for every target. -/
theorem C9_dump_equal_counts (unique : Bool) (ind : Option Nat) (n : Nat)
    (js : List Json) (h : 2 ≤ n) :
    dumpModel unique ind n js
      = some (List.replicate n (writerCount unique ind js)) := by
  obtain ⟨m, rfl⟩ : ∃ m, n = m + 1 := ⟨n - 1, by omega⟩
  have hcnt : writerCount unique ind js = (wRun (mkWriter unique ind) js).count := by
    rw [writerCount, wWriteMany_fst]
  rw [dumpModel, dumpRun_replicate, List.map_replicate]
  rw [List.replicate_succ]
  have hall : ((List.replicate m (wRun (mkWriter unique ind) js).count).all
      fun c2 => c2 = (wRun (mkWriter unique ind) js).count) = true := by
    simp [List.all_eq_true, List.mem_replicate]
  show (if ((List.replicate m (wRun (mkWriter unique ind) js).count).all
        fun c2 => c2 = (wRun (mkWriter unique ind) js).count) = true then
      some ((wRun (mkWriter unique ind) js).count
        :: List.replicate m (wRun (mkWriter unique ind) js).count)
    else none) = _
  rw [if_pos hall]
  rw [hcnt, List.replicate_succ]

theorem C9_witness :
    dumpModel true none 2 [Json.null]
      = some (List.replicate 2 (writerCount true none [Json.null])) :=
  C9_dump_equal_counts true none 2 [Json.null] (by decide)

end JDump
